import Mathlib

/-!
# Territory Slicer — assignment engine, shallow embedding

A shallow embedding of the account-distribution core of the Territory Slicer
repository (the `ALGORITHMS` section of the data/algorithms module: `segmentAccounts`,
`MinHeap`, `greedyBinPacking`, `arrRiskBalance`, `arrGeographyBalance`,
`smartMultiFactor`, `computeTotalCost`, `swapRefine`, `distributeAccounts`),
together with theorems settling the specification's claims about it.

Conventions of the embedding:
* JavaScript numbers are modelled as `ℚ` (exact rational arithmetic).
* `Array.prototype.sort` with comparator `(a, b) => b.ARR - a.ARR` is a stable
  descending sort (ECMAScript 2019 requires sort stability); it is embedded as a
  stable descending insertion sort `sortDesc`.
* JavaScript `Map` state keyed by representative name is embedded as a function
  `String → RunStats`; building the map from an entry list makes later entries
  overwrite earlier ones, which the fold in `initStats` reproduces.
* Mutation of an account's `Assigned_Rep` field becomes a functional record update;
  object spread copies are the identity.
-/

namespace TS

/-- The two market segments (`"Enterprise" | "Mid Market"` in the source). -/
inductive Segment where
  | Enterprise
  | MidMarket
deriving DecidableEq, Repr

/-- `interface Rep` from the source. -/
structure Rep where
  Rep_Name : String
  Location : String
  Segment : Segment
deriving DecidableEq, Repr

/-- `interface Account` from the source.  `Assigned_Rep` and `Segment` are the
optional computed fields. -/
structure Account where
  Account_ID : String
  Account_Name : String
  Current_Rep : String
  ARR : ℚ
  Location : String
  Num_Employees : ℚ
  Num_Marketers : ℚ
  Risk_Score : ℚ
  Assigned_Rep : Option String := none
  Segment : Option Segment := none
deriving DecidableEq, Repr

instance : Inhabited Account :=
  ⟨{ Account_ID := "", Account_Name := "", Current_Rep := "", ARR := 0, Location := "",
     Num_Employees := 0, Num_Marketers := 0, Risk_Score := 0 }⟩

/-- `segmentAccounts` from the source: an account is Enterprise iff
`Num_Employees >= threshold`. -/
def segmentAccounts (accounts : List Account) (threshold : ℚ) : List Account :=
  accounts.map fun acc =>
    { acc with Segment := some (if acc.Num_Employees ≥ threshold then .Enterprise else .MidMarket) }

/-- `type DistributionStrategy` from the source. -/
inductive DistributionStrategy where
  | pureARR      -- "Pure ARR Balance"
  | arrRisk      -- "ARR + Risk Balance"
  | arrGeo       -- "ARR + Geographic Clustering"
  | smartMulti   -- "Smart Multi-Factor"
deriving DecidableEq, Repr

/-- `interface StrategyConfig` from the source. -/
structure StrategyConfig where
  highRiskThreshold : ℚ
  riskPenaltyPct : ℚ
  riskBonusPct : ℚ
  geoBonusPct : ℚ
  workloadPenaltyPct : ℚ
  multiGeoBonusPct : ℚ
  multiRiskPenaltyPct : ℚ
  multiRiskBonusPct : ℚ
  enableSwapRefinement : Bool
  maxSwapIterations : Nat
deriving DecidableEq, Repr

/-- `DEFAULT_STRATEGY_CONFIG` from the source. -/
def DEFAULT_STRATEGY_CONFIG : StrategyConfig :=
  { highRiskThreshold := 70
    riskPenaltyPct := 8
    riskBonusPct := 4
    geoBonusPct := 15
    workloadPenaltyPct := 6
    multiGeoBonusPct := 10
    multiRiskPenaltyPct := 5
    multiRiskBonusPct := 3
    enableSwapRefinement := true
    maxSwapIterations := 10 }

/-! ## Stable descending sort

Every strategy starts with `[...accounts].sort((a, b) => b.ARR - a.ARR)`.
ECMAScript sort is stable, so this is the unique permutation that is descending
in `ARR` and keeps equal-`ARR` elements in input order; `sortDesc` computes it. -/

/-- Insert `a` in front of the first element whose `ARR` is `≤ a.ARR`
(elements strictly larger stay in front; equal elements already present came
earlier in the input and stay in front of nothing — `a` goes before them is
wrong for stability, so `a` is inserted before the first `≤`, i.e. after all
strictly larger ones and before earlier-sorted equal ones coming from later
input positions). -/
def insertDesc (a : Account) : List Account → List Account
  | [] => [a]
  | b :: l => if b.ARR ≤ a.ARR then a :: b :: l else b :: insertDesc a l

/-- Stable descending-`ARR` sort (the embedding of
`[...accounts].sort((a, b) => b.ARR - a.ARR)`). -/
def sortDesc : List Account → List Account
  | [] => []
  | a :: l => insertDesc a (sortDesc l)

/-! ## MinHeap

The source's `MinHeap<T>` with `T = { repName, currentARR }`, keyed by `number`.
The backing array is a `List HeapEntry`; `siftUp`/`siftDown` mirror the source's
loops. -/

/-- One heap slot: the key plus the `{ repName, currentARR }` payload. -/
structure HeapEntry where
  key : ℚ
  repName : String
  currentARR : ℚ
deriving DecidableEq, Repr

instance : Inhabited HeapEntry := ⟨⟨0, "", 0⟩⟩

/-- Swap the entries at positions `i` and `j` (both reads before both writes,
as in the source's destructuring swap). -/
def hswap (l : List HeapEntry) (i j : Nat) : List HeapEntry :=
  (l.set i (l.getD j default)).set j (l.getD i default)

/-- `private siftUp(i)`: bubble position `i` up while its key is smaller than
its parent's. -/
def siftUp (l : List HeapEntry) (i : Nat) : List HeapEntry :=
  if h : i = 0 then l
  else if (l.getD ((i - 1) / 2) default).key ≤ (l.getD i default).key then l
  else siftUp (hswap l ((i - 1) / 2) i) ((i - 1) / 2)
termination_by i
decreasing_by omega

/-- The `smallest` computed by one round of `siftDown`'s loop: the smaller
strictly-smaller child of `i`, if any, else `i` itself. -/
def smallestIdx (l : List HeapEntry) (i : Nat) : Nat :=
  let s1 := if 2 * i + 1 < l.length ∧ (l.getD (2 * i + 1) default).key < (l.getD i default).key
    then 2 * i + 1 else i
  if 2 * i + 2 < l.length ∧ (l.getD (2 * i + 2) default).key < (l.getD s1 default).key
    then 2 * i + 2 else s1

theorem smallestIdx_eq_or (l : List HeapEntry) (i : Nat) :
    smallestIdx l i = i ∨ (i < smallestIdx l i ∧ smallestIdx l i < l.length) := by
  unfold smallestIdx
  by_cases h1 : 2 * i + 1 < l.length ∧ (l.getD (2 * i + 1) default).key < (l.getD i default).key
  · simp only [if_pos h1]
    by_cases h2 : 2 * i + 2 < l.length ∧
        (l.getD (2 * i + 2) default).key < (l.getD (2 * i + 1) default).key
    · simp only [if_pos h2]; right; omega
    · simp only [if_neg h2]; right; omega
  · simp only [if_neg h1]
    by_cases h2 : 2 * i + 2 < l.length ∧
        (l.getD (2 * i + 2) default).key < (l.getD i default).key
    · simp only [if_pos h2]; right; omega
    · simp only [if_neg h2]; left; trivial

/-- `private siftDown(i)`: push position `i` down, swapping with its smallest
strictly-smaller child. -/
def siftDown (l : List HeapEntry) (i : Nat) : List HeapEntry :=
  let s := smallestIdx l i
  if s = i then l
  else siftDown (hswap l s i) s
termination_by l.length - i
decreasing_by
  rename_i h
  have hs := smallestIdx_eq_or l i
  simp only [hswap, List.length_set]
  omega

/-- `push(key, value)`: append then sift up from the last slot. -/
def hpush (l : List HeapEntry) (e : HeapEntry) : List HeapEntry :=
  siftUp (l ++ [e]) l.length

/-- `pop()`: return the root; move the last entry to the root and sift down.
Returns `none` on the empty heap. -/
def hpop (l : List HeapEntry) : Option (HeapEntry × List HeapEntry) :=
  match l with
  | [] => none
  | top :: rest =>
    if rest = [] then some (top, [])
    else some (top, siftDown ((top :: rest).dropLast.set 0 (rest.getLastD default)) 0)

/-! ## Strategy 1: Pure ARR Balance (`greedyBinPacking`) -/

/-- The assignment loop of `greedyBinPacking`: pop the lightest rep, give it the
account, push it back with its increased revenue.  (The `none` branch of `pop`
is unreachable for a nonempty heap, matching the source's `heap.pop()!`.) -/
def greedyGo : List Account → List HeapEntry → List Account
  | [], _ => []
  | a :: rest, h =>
    match hpop h with
    | none => { a with Assigned_Rep := none } :: greedyGo rest h
    | some (e, h') =>
      let newARR := e.currentARR + a.ARR
      { a with Assigned_Rep := some e.repName } ::
        greedyGo rest (hpush h' ⟨newARR, e.repName, newARR⟩)

/-- `greedyBinPacking` from the source. -/
def greedyBinPacking (accounts : List Account) (reps : List Rep)
    (_config : StrategyConfig) : List Account :=
  if reps = [] then accounts.map fun a => { a with Assigned_Rep := none }
  else greedyGo (sortDesc accounts) (reps.foldl (fun h r => hpush h ⟨0, r.Rep_Name, 0⟩) [])

/-! ## Linear-scan strategies (2–4)

`arrRiskBalance`, `arrGeographyBalance` and `smartMultiFactor` share the same
driver: sort descending, keep per-rep running stats in a map keyed by rep name,
and for each account linearly scan all reps for the lowest cost (`cost < minCost`
strict, so the first minimum in pool order wins).  The driver is factored out
here as `linearGo`, instantiated with each strategy's cost and update functions,
which are verbatim translations of the respective loop bodies. -/

/-- The running per-rep aggregate (`{...r, totalARR: 0, count: 0, ...}`).
The spread also copies the rep's `Location`, used by the geography update;
`highRiskCount`/`sameStateCount` are simply unused by strategies that do not
track them. -/
structure RunStats where
  Location : String
  totalARR : ℚ
  count : Nat
  highRiskCount : Nat
  sameStateCount : Nat
deriving DecidableEq, Repr

/-- Fresh stats for a rep. -/
def freshStats (r : Rep) : RunStats :=
  { Location := r.Location, totalARR := 0, count := 0, highRiskCount := 0, sameStateCount := 0 }

/-- `new Map(reps.map(r => [r.Rep_Name, {...r, ...zeroes}]))`: later entries with
the same name overwrite earlier ones. -/
def initStats (reps : List Rep) : String → RunStats :=
  reps.foldl (fun f r => fun n => if n = r.Rep_Name then freshStats r else f n)
    (fun _ => freshStats ⟨"", "", .Enterprise⟩)

/-- The selection loop
`bestRepName = reps[0].Rep_Name; minCost = Infinity; for rep of reps: if cost < minCost …`.
`none` models `Infinity`, which every rational cost beats. -/
def selectRep (reps : List Rep) (cost : Rep → ℚ) : String :=
  (reps.foldl
    (fun best rep =>
      match best.2 with
      | none => (rep.Rep_Name, some (cost rep))
      | some m => if cost rep < m then (rep.Rep_Name, some (cost rep)) else best)
    ((reps.headD ⟨"", "", .Enterprise⟩).Rep_Name, (none : Option ℚ))).1

/-- The shared per-account loop of the three linear-scan strategies. -/
def linearGo (reps : List Rep) (cost : Account → RunStats → Rep → ℚ)
    (update : Account → RunStats → RunStats) (stats : String → RunStats) :
    List Account → List Account
  | [] => []
  | a :: rest =>
    let best := selectRep reps fun r => cost a (stats r.Rep_Name) r
    let stats' := fun n => if n = best then update a (stats best) else stats n
    { a with Assigned_Rep := some best } :: linearGo reps cost update stats' rest

/-- The risk adjustment shared by `arrRiskBalance` and `smartMultiFactor`:
applied only to a high-risk account against a rep with at least one account;
penalty above the 0.40 fraction, bonus below 0.20, nothing in between. -/
def riskAdjust (thr pen bon : ℚ) (a : Account) (s : RunStats) : ℚ :=
  if a.Risk_Score > thr ∧ 0 < s.count then
    (if ((s.highRiskCount : ℚ) / (s.count : ℚ)) > 2/5 then pen
     else if ((s.highRiskCount : ℚ) / (s.count : ℚ)) < 1/5 then -bon
     else 0)
  else 0

/-- The cost scanned by `arrRiskBalance`'s inner loop. -/
def arrRiskCost (thr pen bon : ℚ) (a : Account) (s : RunStats) (_r : Rep) : ℚ :=
  s.totalARR + riskAdjust thr pen bon a s

/-- The winner update of `arrRiskBalance`. -/
def riskUpdate (thr : ℚ) (a : Account) (s : RunStats) : RunStats :=
  { s with totalARR := s.totalARR + a.ARR
           count := s.count + 1
           highRiskCount := s.highRiskCount + (if a.Risk_Score > thr then 1 else 0) }

/-- `arrRiskBalance` from the source. -/
def arrRiskBalance (accounts : List Account) (reps : List Rep)
    (config : StrategyConfig) : List Account :=
  if reps = [] then accounts.map fun a => { a with Assigned_Rep := none }
  else
    let totalARR := (accounts.map (·.ARR)).sum
    let avgARRPerRep := totalARR / (reps.length : ℚ)
    let riskPenalty := avgARRPerRep * (config.riskPenaltyPct / 100)
    let riskBonus := avgARRPerRep * (config.riskBonusPct / 100)
    linearGo reps (arrRiskCost config.highRiskThreshold riskPenalty riskBonus)
      (riskUpdate config.highRiskThreshold) (initStats reps) (sortDesc accounts)

/-- The cost scanned by `arrGeographyBalance`'s inner loop. -/
def arrGeoCost (geoBonus : ℚ) (a : Account) (s : RunStats) (r : Rep) : ℚ :=
  s.totalARR - (if a.Location = r.Location then geoBonus else 0)

/-- The winner update of `arrGeographyBalance` (`bestRepStats.Location` is the
map entry's location). -/
def geoUpdate (a : Account) (s : RunStats) : RunStats :=
  { s with totalARR := s.totalARR + a.ARR
           count := s.count + 1
           sameStateCount := s.sameStateCount + (if a.Location = s.Location then 1 else 0) }

/-- `arrGeographyBalance` from the source. -/
def arrGeographyBalance (accounts : List Account) (reps : List Rep)
    (config : StrategyConfig) : List Account :=
  if reps = [] then accounts.map fun a => { a with Assigned_Rep := none }
  else
    let totalARR := (accounts.map (·.ARR)).sum
    let avgARRPerRep := totalARR / (reps.length : ℚ)
    let geoBonus := avgARRPerRep * (config.geoBonusPct / 100)
    linearGo reps (arrGeoCost geoBonus) geoUpdate (initStats reps) (sortDesc accounts)

/-- The cost scanned by `smartMultiFactor`'s inner loop: workload penalty,
geography bonus and risk adjustment on top of the running revenue. -/
def multiCost (thr target workloadPenalty geoBonus pen bon : ℚ)
    (a : Account) (s : RunStats) (r : Rep) : ℚ :=
  s.totalARR
    + (if (s.count : ℚ) > target * (11/10) then workloadPenalty else 0)
    - (if a.Location = r.Location then geoBonus else 0)
    + riskAdjust thr pen bon a s

/-- The winner update of `smartMultiFactor`. -/
def multiUpdate (thr : ℚ) (a : Account) (s : RunStats) : RunStats :=
  { s with totalARR := s.totalARR + a.ARR
           count := s.count + 1
           highRiskCount := s.highRiskCount + (if a.Risk_Score > thr then 1 else 0)
           sameStateCount := s.sameStateCount + (if a.Location = s.Location then 1 else 0) }

/-- `smartMultiFactor` from the source. -/
def smartMultiFactor (accounts : List Account) (reps : List Rep)
    (config : StrategyConfig) : List Account :=
  if reps = [] then accounts.map fun a => { a with Assigned_Rep := none }
  else
    let targetCount := (accounts.length : ℚ) / (reps.length : ℚ)
    let totalARR := (accounts.map (·.ARR)).sum
    let avgARRPerRep := totalARR / (reps.length : ℚ)
    let workloadPenalty := avgARRPerRep * (config.workloadPenaltyPct / 100)
    let geoBonus := avgARRPerRep * (config.multiGeoBonusPct / 100)
    let riskPenalty := avgARRPerRep * (config.multiRiskPenaltyPct / 100)
    let riskBonus := avgARRPerRep * (config.multiRiskBonusPct / 100)
    linearGo reps
      (multiCost config.highRiskThreshold targetCount workloadPenalty geoBonus
        riskPenalty riskBonus)
      (multiUpdate config.highRiskThreshold) (initStats reps) (sortDesc accounts)

/-! ## Swap refinement -/

/-- `computeTotalCost` from the source: the global objective minimized by the
refinement pass.  Grouping by rep name through the `Map` is, entry for entry,
a filter of the account list on `Assigned_Rep` (accounts whose assignee is not
in the map are ignored). -/
def computeTotalCost (accounts : List Account) (reps : List Rep)
    (strategy : DistributionStrategy) (config : StrategyConfig) : ℚ :=
  let totalARR := (accounts.map (·.ARR)).sum
  let avgARRPerRep := if 0 < reps.length then totalARR / (reps.length : ℚ) else 0
  let targetCount := if 0 < reps.length then (accounts.length : ℚ) / (reps.length : ℚ) else 0
  (reps.map fun rep =>
    let mine := accounts.filter fun a => decide (a.Assigned_Rep = some rep.Rep_Name)
    let repARR := (mine.map (·.ARR)).sum
    (repARR - avgARRPerRep) ^ 2
    + (if strategy = .arrRisk ∨ strategy = .smartMulti then
        (let highRiskCount :=
          (mine.filter fun a => decide (a.Risk_Score > config.highRiskThreshold)).length
         let avgRiskPct := if 0 < mine.length then (highRiskCount : ℚ) / (mine.length : ℚ) else 0
         let penaltyPct := if strategy = .arrRisk then config.riskPenaltyPct
                           else config.multiRiskPenaltyPct
         (avgRiskPct * avgARRPerRep * penaltyPct / 100) ^ 2)
       else 0)
    - (if strategy = .arrGeo ∨ strategy = .smartMulti then
        (let sameStateCount := (mine.filter fun a => decide (a.Location = rep.Location)).length
         let bonusPct := if strategy = .arrGeo then config.geoBonusPct else config.multiGeoBonusPct
         (sameStateCount : ℚ) * avgARRPerRep * (bonusPct / 100))
       else 0)
    + (if strategy = .smartMulti then
        (if (mine.length : ℚ) > targetCount * (11/10) then
          (avgARRPerRep * config.workloadPenaltyPct / 100) ^ 2
         else 0)
       else 0)).sum

/-- Overwrite an account's assignee. -/
def setRep (rep : Option String) (a : Account) : Account := { a with Assigned_Rep := rep }

/-- The per-rep index groups built at the start of each refinement pass
(`byRep`): positions of the accounts currently assigned to `name`, in list
order. -/
def indicesAssignedTo (cur : List Account) (name : String) : List Nat :=
  (List.range cur.length).filter fun i => decide ((cur.getD i default).Assigned_Rep = some name)

/-- `current[idxA].Assigned_Rep = repNames[rj]; current[idxB].Assigned_Rep = repNames[ri]`. -/
def applySwap (cur : List Account) (iA iB : Nat) (nameA nameB : String) : List Account :=
  let l1 := cur.set iA (setRep (some nameB) (cur.getD iA default))
  l1.set iB (setRep (some nameA) (l1.getD iB default))

/-- The ordered pairs `(repNames[ri], repNames[rj])`, `ri < rj`, in scan order. -/
def repPairs : List String → List (String × String)
  | [] => []
  | x :: xs => xs.map (fun y => (x, y)) ++ repPairs xs

/-- All candidate swaps of one pass, in the source's scan order:
rep pair outer, then `idxA`, then `idxB`. -/
def swapCandidates (cur : List Account) (names : List String) :
    List (Nat × Nat × String × String) :=
  (repPairs names).flatMap fun p =>
    (indicesAssignedTo cur p.1).flatMap fun iA =>
      (indicesAssignedTo cur p.2).map fun iB => (iA, iB, p.1, p.2)

/-- Scan the candidates in order; the first swap whose new cost beats
`bestCost - 0.01` is kept (`break outer`), anything else is reverted. -/
def findSwapGo (cur : List Account) (best : ℚ) (reps : List Rep)
    (strategy : DistributionStrategy) (config : StrategyConfig) :
    List (Nat × Nat × String × String) → Option (List Account × ℚ)
  | [] => none
  | (iA, iB, nameA, nameB) :: rest =>
    let cand := applySwap cur iA iB nameA nameB
    let newCost := computeTotalCost cand reps strategy config
    if newCost < best - 1/100 then some (cand, newCost)
    else findSwapGo cur best reps strategy config rest

/-- One refinement pass: group `cur` by rep, scan all pairwise swaps, return the
first improving one (with its cost) or `none` if the pass found none. -/
def findSwap (cur : List Account) (best : ℚ) (reps : List Rep)
    (strategy : DistributionStrategy) (config : StrategyConfig) :
    Option (List Account × ℚ) :=
  findSwapGo cur best reps strategy config (swapCandidates cur (reps.map (·.Rep_Name)))

/-- The `for (let iter = 0; iter < config.maxSwapIterations; iter++)` loop:
each iteration either keeps the first improving swap and continues with the new
best cost, or stops (`if (!improved) break`). -/
def swapGo (reps : List Rep) (strategy : DistributionStrategy) (config : StrategyConfig) :
    Nat → List Account → ℚ → List Account
  | 0, cur, _ => cur
  | fuel + 1, cur, best =>
    match findSwap cur best reps strategy config with
    | none => cur
    | some (next, nextCost) => swapGo reps strategy config fuel next nextCost

/-- `swapRefine` from the source. -/
def swapRefine (accounts : List Account) (reps : List Rep)
    (strategy : DistributionStrategy) (config : StrategyConfig) : List Account :=
  if reps.length < 2 ∨ accounts.length < 2 then accounts
  else swapGo reps strategy config config.maxSwapIterations accounts
    (computeTotalCost accounts reps strategy config)

/-! ## Orchestrator -/

/-- The per-segment `dispatch` closure inside `distributeAccounts`. -/
def dispatch (strategy : DistributionStrategy) (config : StrategyConfig)
    (accts : List Account) (segReps : List Rep) : List Account :=
  if accts = [] then []
  else if segReps = [] then accts.map fun a => { a with Assigned_Rep := none }
  else
    let result :=
      match strategy with
      | .arrRisk => arrRiskBalance accts segReps config
      | .arrGeo => arrGeographyBalance accts segReps config
      | .smartMulti => smartMultiFactor accts segReps config
      | .pureARR => greedyBinPacking accts segReps config
    if config.enableSwapRefinement then swapRefine result segReps strategy config
    else result

/-- `distributeAccounts` from the source: split both pools by segment, dispatch
each, concatenate Enterprise results before Mid Market results. -/
def distributeAccounts (accounts : List Account) (reps : List Rep)
    (strategy : DistributionStrategy := .pureARR)
    (config : StrategyConfig := DEFAULT_STRATEGY_CONFIG) : List Account :=
  let entAccounts := accounts.filter fun a => decide (a.Segment = some .Enterprise)
  let mmAccounts := accounts.filter fun a => decide (a.Segment = some .MidMarket)
  let entReps := reps.filter fun r => decide (r.Segment = .Enterprise)
  let mmReps := reps.filter fun r => decide (r.Segment = .MidMarket)
  dispatch strategy config entAccounts entReps ++ dispatch strategy config mmAccounts mmReps

/-! ## Derived quantities used by the claims -/

/-- Total ARR of a list of accounts. -/
def sumARR (l : List Account) : ℚ := (l.map (·.ARR)).sum

/-- The revenue currently assigned to the representative named `name`. -/
def load (l : List Account) (name : String) : ℚ :=
  ((l.filter fun a => decide (a.Assigned_Rep = some name)).map (·.ARR)).sum

/-- An account with its assignment erased; two accounts are "the same account"
(identity, revenue, segment, …) iff their `core`s are equal. -/
def core (a : Account) : Account := { a with Assigned_Rep := none }

/-- The largest single-account ARR in a pool (`0` for the empty pool). -/
def maxARR (l : List Account) : ℚ := (l.map (·.ARR)).foldr max 0

/-- Sum of squared deviations of the per-rep revenues from their mean: the
segment's revenue variance scaled by the rep count.  The revenue standard
deviation is `√(devSq / k)`, so comparisons of standard deviations are exactly
comparisons of `devSq`. -/
def devSq (l : List Account) (reps : List Rep) : ℚ :=
  let loads := reps.map fun r => load l r.Rep_Name
  let mean := loads.sum / (reps.length : ℚ)
  (loads.map fun x => (x - mean) ^ 2).sum

/-! ## Generic list helpers -/

theorem set_getD_self {α : Type} [Inhabited α] :
    ∀ (l : List α) (i : Nat), l.set i (l.getD i default) = l := by
  intro l
  induction l with
  | nil => intro i; rfl
  | cons x t ih =>
    intro i
    cases i with
    | zero => rfl
    | succ n => simpa using ih n

/-! ## Facts about `core`, `setRep` and account projections -/

@[simp] theorem core_setRep (v : Option String) (a : Account) : core (setRep v a) = core a := rfl

@[simp] theorem core_assign (a : Account) (v : Option String) :
    core { a with Assigned_Rep := v } = core a := rfl

@[simp] theorem core_ARR (a : Account) : (core a).ARR = a.ARR := rfl

@[simp] theorem core_Segment (a : Account) : (core a).Segment = a.Segment := rfl

@[simp] theorem core_ID (a : Account) : (core a).Account_ID = a.Account_ID := rfl

@[simp] theorem setRep_ARR (v : Option String) (a : Account) : (setRep v a).ARR = a.ARR := rfl

@[simp] theorem setRep_assigned (v : Option String) (a : Account) :
    (setRep v a).Assigned_Rep = v := rfl

/-! ## Facts about `sortDesc` -/

theorem insertDesc_perm (a : Account) (l : List Account) :
    (insertDesc a l).Perm (a :: l) := by
  induction l with
  | nil => exact List.Perm.refl _
  | cons b t ih =>
    rw [insertDesc]
    split
    · exact List.Perm.refl _
    · exact (ih.cons b).trans (List.Perm.swap a b t)

theorem sortDesc_perm (l : List Account) : (sortDesc l).Perm l := by
  induction l with
  | nil => exact List.Perm.refl _
  | cons a t ih => exact (insertDesc_perm a (sortDesc t)).trans (ih.cons a)

theorem insertDesc_pairwise (a : Account) (l : List Account)
    (h : l.Pairwise fun x y => y.ARR ≤ x.ARR) :
    (insertDesc a l).Pairwise fun x y => y.ARR ≤ x.ARR := by
  induction l with
  | nil => simp [insertDesc]
  | cons b t ih =>
    rw [insertDesc]
    split
    · next hba =>
      refine List.pairwise_cons.mpr ⟨?_, h⟩
      intro y hy
      rcases List.mem_cons.mp hy with rfl | hy
      · exact hba
      · exact le_trans ((List.pairwise_cons.mp h).1 y hy) hba
    · next hba =>
      have hab : a.ARR ≤ b.ARR := le_of_lt (lt_of_not_le hba)
      refine List.pairwise_cons.mpr ⟨?_, ih (List.pairwise_cons.mp h).2⟩
      intro y hy
      rcases List.mem_cons.mp ((insertDesc_perm a t).mem_iff.mp hy) with rfl | hyt
      · exact hab
      · exact (List.pairwise_cons.mp h).1 y hyt

theorem sortDesc_pairwise (l : List Account) :
    (sortDesc l).Pairwise fun x y => y.ARR ≤ x.ARR := by
  induction l with
  | nil => simp [sortDesc]
  | cons a t ih => exact insertDesc_pairwise a (sortDesc t) ih

theorem insertDesc_filter_eq (a : Account) (q : ℚ) (s : List Account) :
    (insertDesc a s).filter (fun x => decide (x.ARR = q)) =
      if a.ARR = q then a :: s.filter (fun x => decide (x.ARR = q))
      else s.filter fun x => decide (x.ARR = q) := by
  induction s with
  | nil => simp [insertDesc, List.filter_cons]
  | cons b u ihs =>
    rw [insertDesc]
    split
    · next hba => simp [List.filter_cons]
    · next hba =>
      have hbne : b.ARR ≠ q ∨ a.ARR ≠ q := by
        by_cases haq : a.ARR = q
        · exact Or.inl fun hb => hba (by rw [hb, haq])
        · exact Or.inr haq
      by_cases hbq : b.ARR = q
      · rcases hbne with hb | ha
        · exact absurd hbq hb
        · simp [List.filter_cons, hbq, ihs, ha]
      · simp only [List.filter_cons, ihs]
        by_cases haq : a.ARR = q
        · simp [haq, hbq]
        · simp [haq, hbq]

/-- Stability of `sortDesc`: the accounts with any fixed `ARR` value appear in
the sorted output in exactly their input order. -/
theorem sortDesc_stable (l : List Account) (q : ℚ) :
    (sortDesc l).filter (fun a => decide (a.ARR = q)) =
      l.filter fun a => decide (a.ARR = q) := by
  induction l with
  | nil => rfl
  | cons a t ih =>
    rw [sortDesc, insertDesc_filter_eq, List.filter_cons]
    by_cases haq : a.ARR = q
    · simp [haq, ih]
    · simp [haq, ih]

/-! ## Partitioning a list by two exclusive, exhaustive predicates -/

theorem filter_partition_perm {α : Type} (p q : α → Bool) (l : List α)
    (h : ∀ a ∈ l, (p a = true ∧ q a = false) ∨ (p a = false ∧ q a = true)) :
    (l.filter p ++ l.filter q).Perm l := by
  induction l with
  | nil => exact List.Perm.refl _
  | cons a t ih =>
    have ht := ih fun x hx => h x (List.mem_cons_of_mem a hx)
    rcases h a (List.mem_cons_self a t) with ⟨hp, hq⟩ | ⟨hp, hq⟩
    · simpa [List.filter_cons, hp, hq] using ht.cons a
    · simp only [List.filter_cons, hp, hq, if_neg Bool.false_ne_true, if_pos rfl]
      exact List.perm_middle.trans (ht.cons a)

/-! ## Heap bookkeeping: lengths and contents -/

theorem cons_set_perm {α : Type} [Inhabited α] :
    ∀ (t : List α) (m : Nat) (x : α), m < t.length →
      ((t.getD m default) :: t.set m x).Perm (x :: t) := by
  intro t
  induction t with
  | nil => intro m x h; simp at h
  | cons y s ih =>
    intro m x h
    cases m with
    | zero =>
      simp only [List.getD_cons_zero, List.set]
      exact List.Perm.swap x y s
    | succ n =>
      have hn : n < s.length := by simpa using h
      simp only [List.getD_cons_succ, List.set]
      exact (List.Perm.swap y (s.getD n default) (s.set n x)).trans
        (((ih n x hn).cons y).trans (List.Perm.swap x y s))

theorem hswap_length (l : List HeapEntry) (i j : Nat) : (hswap l i j).length = l.length := by
  simp [hswap]

theorem hswap_perm :
    ∀ (l : List HeapEntry) (i j : Nat), i < l.length → j < l.length → (hswap l i j).Perm l := by
  intro l
  induction l with
  | nil => intro i j hi; simp at hi
  | cons x t ih =>
    intro i j hi hj
    cases i with
    | zero =>
      cases j with
      | zero => simp [hswap]
      | succ m =>
        have hm : m < t.length := by simpa using hj
        simp only [hswap, List.getD_cons_succ, List.getD_cons_zero, List.set]
        exact cons_set_perm t m x hm
    | succ n =>
      cases j with
      | zero =>
        have hn : n < t.length := by simpa using hi
        simp only [hswap, List.getD_cons_succ, List.getD_cons_zero, List.set]
        exact cons_set_perm t n x hn
      | succ m =>
        have hn : n < t.length := by simpa using hi
        have hm : m < t.length := by simpa using hj
        simp only [hswap, List.getD_cons_succ, List.set]
        exact (ih n m hn hm).cons x

theorem siftUp_length : ∀ (i : Nat) (l : List HeapEntry), (siftUp l i).length = l.length := by
  intro i
  induction i using Nat.strong_induction_on with
  | _ i ih =>
    intro l
    rw [siftUp]
    split
    · rfl
    · split
      · rfl
      · next h _ =>
        rw [ih ((i - 1) / 2) (by omega), hswap_length]

theorem siftUp_perm : ∀ (i : Nat) (l : List HeapEntry), i < l.length → (siftUp l i).Perm l := by
  intro i
  induction i using Nat.strong_induction_on with
  | _ i ih =>
    intro l hi
    rw [siftUp]
    split
    · exact List.Perm.refl _
    · split
      · exact List.Perm.refl _
      · next h _ =>
        have hp : (i - 1) / 2 < l.length := by omega
        have hlen : (i - 1) / 2 < (hswap l ((i - 1) / 2) i).length := by
          rw [hswap_length]; omega
        exact (ih ((i - 1) / 2) (by omega) _ hlen).trans (hswap_perm l _ i hp hi)

theorem siftDown_length :
    ∀ (n : Nat) (l : List HeapEntry) (i : Nat), l.length - i ≤ n →
      (siftDown l i).length = l.length := by
  intro n
  induction n with
  | zero =>
    intro l i hn
    rw [siftDown]
    rcases smallestIdx_eq_or l i with h | h
    · simp [h]
    · omega
  | succ m ih =>
    intro l i hn
    rw [siftDown]
    rcases smallestIdx_eq_or l i with h | h
    · simp [h]
    · rw [if_neg (by omega)]
      rw [ih (hswap l (smallestIdx l i) i) (smallestIdx l i) (by rw [hswap_length]; omega)]
      exact hswap_length ..

theorem siftDown_perm :
    ∀ (n : Nat) (l : List HeapEntry) (i : Nat), l.length - i ≤ n →
      (siftDown l i).Perm l := by
  intro n
  induction n with
  | zero =>
    intro l i hn
    rw [siftDown]
    rcases smallestIdx_eq_or l i with h | h
    · simp only [h, if_pos rfl]; exact List.Perm.refl _
    · omega
  | succ m ih =>
    intro l i hn
    rw [siftDown]
    rcases smallestIdx_eq_or l i with h | h
    · simp only [h, if_pos rfl]; exact List.Perm.refl _
    · rw [if_neg (by omega)]
      have hi : i < l.length := by omega
      refine (ih (hswap l (smallestIdx l i) i) (smallestIdx l i)
        (by rw [hswap_length]; omega)).trans ?_
      exact hswap_perm l _ i h.2 hi

theorem hpush_perm (l : List HeapEntry) (e : HeapEntry) : (hpush l e).Perm (l ++ [e]) := by
  unfold hpush
  exact siftUp_perm l.length (l ++ [e]) (by simp)

theorem hpush_length (l : List HeapEntry) (e : HeapEntry) :
    (hpush l e).length = l.length + 1 := by
  simpa using (hpush_perm l e).length_eq

theorem hpop_none (l : List HeapEntry) : hpop l = none ↔ l = [] := by
  cases l with
  | nil => simp [hpop]
  | cons top rest =>
    simp only [hpop]
    split
    · simp
    · simp

theorem siftDown_perm' (l : List HeapEntry) (i : Nat) : (siftDown l i).Perm l :=
  siftDown_perm l.length l i (by omega)

theorem siftDown_length' (l : List HeapEntry) (i : Nat) : (siftDown l i).length = l.length :=
  siftDown_length l.length l i (by omega)

theorem dropLast_append_getLastD {α : Type} :
    ∀ (l : List α), l ≠ [] → ∀ (d : α), l.dropLast ++ [l.getLastD d] = l := by
  intro l
  induction l with
  | nil => intro h; simp at h
  | cons a t ih =>
    intro _ d
    cases t with
    | nil => simp
    | cons b u =>
      have h2 := ih (by simp) a
      rw [List.dropLast_cons₂, List.getLastD_cons, List.cons_append, h2]

theorem hpop_perm (l : List HeapEntry) (e : HeapEntry) (h' : List HeapEntry)
    (h : hpop l = some (e, h')) : (e :: h').Perm l := by
  cases l with
  | nil => simp [hpop] at h
  | cons top rest =>
    simp only [hpop] at h
    split at h
    · next hrest =>
      rw [Option.some.injEq, Prod.mk.injEq] at h
      obtain ⟨rfl, rfl⟩ := h
      simp [hrest]
    · next hrest =>
      rw [Option.some.injEq, Prod.mk.injEq] at h
      obtain ⟨rfl, rfl⟩ := h
      refine List.Perm.cons top ?_
      have hdl : (top :: rest).dropLast = top :: rest.dropLast := by
        cases rest with
        | nil => simp at hrest
        | cons b u => rfl
      have hset : ((top :: rest).dropLast.set 0 (rest.getLastD default)) =
          rest.getLastD default :: rest.dropLast := by rw [hdl]; rfl
      have h1 : (siftDown ((top :: rest).dropLast.set 0 (rest.getLastD default)) 0).Perm
          (rest.getLastD default :: rest.dropLast) := by
        rw [hset] at *
        exact siftDown_perm' _ 0
      refine h1.trans ?_
      refine (List.perm_append_singleton _ _).symm.trans ?_
      rw [dropLast_append_getLastD rest hrest default]

theorem hpop_length (l : List HeapEntry) (e : HeapEntry) (h' : List HeapEntry)
    (h : hpop l = some (e, h')) : h'.length + 1 = l.length := by
  simpa using (hpop_perm l e h' h).length_eq

theorem hpush_names (l : List HeapEntry) (e : HeapEntry) :
    ((hpush l e).map (·.repName)).Perm (l.map (·.repName) ++ [e.repName]) := by
  simpa using (hpush_perm l e).map (·.repName)

/-! ## Structure of the greedy strategy's output -/

theorem greedyGo_core : ∀ (accs : List Account) (h : List HeapEntry),
    (greedyGo accs h).map core = accs.map core := by
  intro accs
  induction accs with
  | nil => intro h; rfl
  | cons a rest ih =>
    intro h
    cases hp : hpop h with
    | none => simp [greedyGo, hp, ih]
    | some eh' => simp [greedyGo, hp, ih]

theorem greedyGo_assigned : ∀ (accs : List Account) (h : List HeapEntry) (b : Account),
    b ∈ greedyGo accs h →
    b.Assigned_Rep = none ∨ ∃ n, b.Assigned_Rep = some n ∧ n ∈ h.map (·.repName) := by
  intro accs
  induction accs with
  | nil => intro h b hb; simp [greedyGo] at hb
  | cons a rest ih =>
    intro h b hb
    cases hp : hpop h with
    | none =>
      rw [greedyGo, hp] at hb
      rcases List.mem_cons.mp hb with rfl | hb
      · left; rfl
      · exact ih h b hb
    | some eh' =>
      obtain ⟨e, h'⟩ := eh'
      rw [greedyGo, hp] at hb
      rcases List.mem_cons.mp hb with rfl | hb
      · right
        refine ⟨e.repName, rfl, ?_⟩
        have : e ∈ h := (hpop_perm h e h' hp).mem_iff.mp (List.mem_cons_self e h')
        exact List.mem_map.mpr ⟨e, this, rfl⟩
      · rcases ih _ b hb with hnone | ⟨n, hn, hmem⟩
        · left; exact hnone
        · right
          refine ⟨n, hn, ?_⟩
          have hmem2 := (hpush_names h' ⟨e.currentARR + a.ARR, e.repName, e.currentARR + a.ARR⟩).mem_iff.mp hmem
          rcases List.mem_append.mp hmem2 with hmem2 | hmem2
          · have : n ∈ (e :: h').map (·.repName) := List.mem_cons_of_mem _ hmem2
            exact ((hpop_perm h e h' hp).map (·.repName)).mem_iff.mp this
          · have hne : n = e.repName := by simp at hmem2; exact hmem2
            subst hne
            have : e ∈ h := (hpop_perm h e h' hp).mem_iff.mp (List.mem_cons_self e h')
            exact List.mem_map.mpr ⟨e, this, rfl⟩

theorem greedyGo_total : ∀ (accs : List Account) (h : List HeapEntry), h ≠ [] →
    ∀ b ∈ greedyGo accs h, ∃ n, b.Assigned_Rep = some n ∧ n ∈ h.map (·.repName) := by
  intro accs
  induction accs with
  | nil => intro h _ b hb; simp [greedyGo] at hb
  | cons a rest ih =>
    intro h hne b hb
    cases hp : hpop h with
    | none => exact absurd (hpop_none h |>.mp hp) hne
    | some eh' =>
      obtain ⟨e, h'⟩ := eh'
      rw [greedyGo, hp] at hb
      have hmem_e : e ∈ h := (hpop_perm h e h' hp).mem_iff.mp (List.mem_cons_self e h')
      rcases List.mem_cons.mp hb with rfl | hb
      · exact ⟨e.repName, rfl, List.mem_map.mpr ⟨e, hmem_e, rfl⟩⟩
      · have hne2 : hpush h' ⟨e.currentARR + a.ARR, e.repName, e.currentARR + a.ARR⟩ ≠ [] := by
          have := hpush_length h' ⟨e.currentARR + a.ARR, e.repName, e.currentARR + a.ARR⟩
          intro hcon
          rw [hcon] at this
          simp at this
        obtain ⟨n, hn, hmem⟩ := ih _ hne2 b hb
        refine ⟨n, hn, ?_⟩
        have hmem2 := (hpush_names h' ⟨e.currentARR + a.ARR, e.repName, e.currentARR + a.ARR⟩).mem_iff.mp hmem
        rcases List.mem_append.mp hmem2 with hmem2 | hmem2
        · have : n ∈ (e :: h').map (·.repName) := List.mem_cons_of_mem _ hmem2
          exact ((hpop_perm h e h' hp).map (·.repName)).mem_iff.mp this
        · have hne3 : n = e.repName := by simpa using hmem2
          subst hne3
          exact List.mem_map.mpr ⟨e, hmem_e, rfl⟩

/-! ## Structure of the linear-scan strategies' output -/

theorem selectFold_mem (cost : Rep → ℚ) (N : List String) :
    ∀ (l : List Rep) (acc : String × Option ℚ), acc.1 ∈ N → (∀ r ∈ l, r.Rep_Name ∈ N) →
      (l.foldl
        (fun best rep =>
          match best.2 with
          | none => (rep.Rep_Name, some (cost rep))
          | some m => if cost rep < m then (rep.Rep_Name, some (cost rep)) else best)
        acc).1 ∈ N := by
  intro l
  induction l with
  | nil => intro acc hacc _; exact hacc
  | cons r t ih =>
    intro acc hacc hl
    rw [List.foldl_cons]
    refine ih _ ?_ fun r' hr' => hl r' (List.mem_cons_of_mem r hr')
    cases hsnd : acc.2 with
    | none => simpa using hl r (List.mem_cons_self r t)
    | some m =>
      simp only [hsnd]
      split
      · simpa using hl r (List.mem_cons_self r t)
      · exact hacc

theorem selectRep_mem (reps : List Rep) (cost : Rep → ℚ) (hne : reps ≠ []) :
    selectRep reps cost ∈ reps.map (·.Rep_Name) := by
  unfold selectRep
  refine selectFold_mem cost _ reps _ ?_ fun r hr => List.mem_map.mpr ⟨r, hr, rfl⟩
  cases reps with
  | nil => exact absurd rfl hne
  | cons r t => simp

theorem linearGo_core (reps : List Rep) (cost : Account → RunStats → Rep → ℚ)
    (update : Account → RunStats → RunStats) :
    ∀ (accs : List Account) (stats : String → RunStats),
      (linearGo reps cost update stats accs).map core = accs.map core := by
  intro accs
  induction accs with
  | nil => intro stats; rfl
  | cons a rest ih => intro stats; simp [linearGo, ih]

theorem linearGo_assigned (reps : List Rep) (cost : Account → RunStats → Rep → ℚ)
    (update : Account → RunStats → RunStats) (hne : reps ≠ []) :
    ∀ (accs : List Account) (stats : String → RunStats) (b : Account),
      b ∈ linearGo reps cost update stats accs →
      ∃ n, b.Assigned_Rep = some n ∧ n ∈ reps.map (·.Rep_Name) := by
  intro accs
  induction accs with
  | nil => intro stats b hb; simp [linearGo] at hb
  | cons a rest ih =>
    intro stats b hb
    rw [linearGo] at hb
    rcases List.mem_cons.mp hb with rfl | hb
    · exact ⟨_, rfl, selectRep_mem reps _ hne⟩
    · exact ih _ b hb

/-! ## Structure of the refinement pass -/

@[simp] theorem core_default : core (default : Account) = default := rfl

theorem set_setRep_core (l : List Account) (i : Nat) (v : Option String) :
    (l.set i (setRep v (l.getD i default))).map core = l.map core := by
  rw [List.map_set]
  have h1 : core (setRep v (l.getD i default)) = (l.map core).getD i default := by
    rw [core_setRep]
    have := List.getD_map (f := core) (l := l) (d := default) (n := i)
    rw [core_default] at this
    exact this.symm
  rw [h1, set_getD_self]

theorem applySwap_core (cur : List Account) (iA iB : Nat) (nA nB : String) :
    (applySwap cur iA iB nA nB).map core = cur.map core := by
  unfold applySwap
  rw [set_setRep_core, set_setRep_core]

theorem applySwap_mem (cur : List Account) (iA iB : Nat) (nA nB : String) (b : Account)
    (hb : b ∈ applySwap cur iA iB nA nB) :
    b ∈ cur ∨ b.Assigned_Rep = some nA ∨ b.Assigned_Rep = some nB := by
  unfold applySwap at hb
  rcases List.mem_or_eq_of_mem_set hb with hb | rfl
  · rcases List.mem_or_eq_of_mem_set hb with hb | rfl
    · exact Or.inl hb
    · exact Or.inr (Or.inr rfl)
  · exact Or.inr (Or.inl rfl)

theorem repPairs_mem : ∀ (names : List String) (p : String × String), p ∈ repPairs names →
    p.1 ∈ names ∧ p.2 ∈ names := by
  intro names
  induction names with
  | nil => intro p hp; simp [repPairs] at hp
  | cons x xs ih =>
    intro p hp
    rw [repPairs] at hp
    rcases List.mem_append.mp hp with hp | hp
    · obtain ⟨y, hy, rfl⟩ := List.mem_map.mp hp
      exact ⟨List.mem_cons_self x xs, List.mem_cons_of_mem x hy⟩
    · obtain ⟨h1, h2⟩ := ih p hp
      exact ⟨List.mem_cons_of_mem x h1, List.mem_cons_of_mem x h2⟩

theorem repPairs_ne : ∀ (names : List String), names.Nodup →
    ∀ (p : String × String), p ∈ repPairs names → p.1 ≠ p.2 := by
  intro names
  induction names with
  | nil => intro _ p hp; simp [repPairs] at hp
  | cons x xs ih =>
    intro hnd p hp
    rw [repPairs] at hp
    rcases List.mem_append.mp hp with hp | hp
    · obtain ⟨y, hy, rfl⟩ := List.mem_map.mp hp
      intro hxy
      have hxy' : x = y := hxy
      exact (List.nodup_cons.mp hnd).1 (hxy' ▸ hy)
    · exact ih (List.nodup_cons.mp hnd).2 p hp

theorem indicesAssignedTo_mem (cur : List Account) (name : String) (i : Nat) :
    i ∈ indicesAssignedTo cur name ↔
      i < cur.length ∧ (cur.getD i default).Assigned_Rep = some name := by
  simp [indicesAssignedTo, List.mem_filter, List.mem_range]

theorem swapCandidates_mem (cur : List Account) (names : List String)
    (c : Nat × Nat × String × String) (hc : c ∈ swapCandidates cur names) :
    (c.2.2.1, c.2.2.2) ∈ repPairs names ∧
      c.1 ∈ indicesAssignedTo cur c.2.2.1 ∧ c.2.1 ∈ indicesAssignedTo cur c.2.2.2 := by
  unfold swapCandidates at hc
  obtain ⟨p, hp, hc⟩ := List.mem_flatMap.mp hc
  obtain ⟨iA, hiA, hc⟩ := List.mem_flatMap.mp hc
  obtain ⟨iB, hiB, rfl⟩ := List.mem_map.mp hc
  exact ⟨hp, hiA, hiB⟩

theorem findSwapGo_spec (cur : List Account) (best : ℚ) (reps : List Rep)
    (strategy : DistributionStrategy) (config : StrategyConfig) :
    ∀ (cands : List (Nat × Nat × String × String)) (next : List Account) (c : ℚ),
      findSwapGo cur best reps strategy config cands = some (next, c) →
      (∃ q ∈ cands, next = applySwap cur q.1 q.2.1 q.2.2.1 q.2.2.2) ∧
        c = computeTotalCost next reps strategy config ∧ c < best - 1/100 := by
  intro cands
  induction cands with
  | nil => intro next c h; simp [findSwapGo] at h
  | cons q rest ih =>
    intro next c h
    obtain ⟨iA, iB, nA, nB⟩ := q
    rw [findSwapGo] at h
    split at h
    · next himp =>
      rw [Option.some.injEq, Prod.mk.injEq] at h
      obtain ⟨rfl, rfl⟩ := h
      exact ⟨⟨(iA, iB, nA, nB), List.mem_cons_self _ _, rfl⟩, rfl, himp⟩
    · obtain ⟨⟨q', hq', rfl⟩, hc, himp⟩ := ih next c h
      exact ⟨⟨q', List.mem_cons_of_mem _ hq', rfl⟩, hc, himp⟩

theorem findSwap_spec (cur : List Account) (best : ℚ) (reps : List Rep)
    (strategy : DistributionStrategy) (config : StrategyConfig) (next : List Account) (c : ℚ)
    (h : findSwap cur best reps strategy config = some (next, c)) :
    ∃ iA iB nA nB,
      (nA, nB) ∈ repPairs (reps.map (·.Rep_Name)) ∧
      iA < cur.length ∧ (cur.getD iA default).Assigned_Rep = some nA ∧
      iB < cur.length ∧ (cur.getD iB default).Assigned_Rep = some nB ∧
      next = applySwap cur iA iB nA nB ∧
      c = computeTotalCost next reps strategy config ∧ c < best - 1/100 := by
  obtain ⟨⟨q, hq, rfl⟩, hc, himp⟩ := findSwapGo_spec cur best reps strategy config _ next c h
  obtain ⟨hp, hiA, hiB⟩ := swapCandidates_mem cur _ q hq
  obtain ⟨hA1, hA2⟩ := (indicesAssignedTo_mem cur _ _).mp hiA
  obtain ⟨hB1, hB2⟩ := (indicesAssignedTo_mem cur _ _).mp hiB
  exact ⟨q.1, q.2.1, q.2.2.1, q.2.2.2, hp, hA1, hA2, hB1, hB2, rfl, hc, himp⟩

theorem swapGo_core (reps : List Rep) (strategy : DistributionStrategy)
    (config : StrategyConfig) :
    ∀ (fuel : Nat) (cur : List Account) (best : ℚ),
      (swapGo reps strategy config fuel cur best).map core = cur.map core := by
  intro fuel
  induction fuel with
  | zero => intro cur best; rfl
  | succ n ih =>
    intro cur best
    rw [swapGo]
    cases hf : findSwap cur best reps strategy config with
    | none => rfl
    | some nc =>
      obtain ⟨next, c⟩ := nc
      obtain ⟨iA, iB, nA, nB, _, _, _, _, _, rfl, _, _⟩ :=
        findSwap_spec cur best reps strategy config next c hf
      rw [ih, applySwap_core]

theorem swapGo_assigned (reps : List Rep) (strategy : DistributionStrategy)
    (config : StrategyConfig) (Q : Option String → Prop)
    (hQ : ∀ n ∈ reps.map (·.Rep_Name), Q (some n)) :
    ∀ (fuel : Nat) (cur : List Account) (best : ℚ), (∀ b ∈ cur, Q b.Assigned_Rep) →
      ∀ b ∈ swapGo reps strategy config fuel cur best, Q b.Assigned_Rep := by
  intro fuel
  induction fuel with
  | zero => intro cur best hcur b hb; exact hcur b hb
  | succ n ih =>
    intro cur best hcur b hb
    rw [swapGo] at hb
    cases hf : findSwap cur best reps strategy config with
    | none => rw [hf] at hb; exact hcur b hb
    | some nc =>
      obtain ⟨next, c⟩ := nc
      rw [hf] at hb
      obtain ⟨iA, iB, nA, nB, hpair, _, _, _, _, rfl, _, _⟩ :=
        findSwap_spec cur best reps strategy config next c hf
      have hAB := repPairs_mem _ _ hpair
      refine ih _ c ?_ b hb
      intro x hx
      rcases applySwap_mem cur iA iB nA nB x hx with hx | hx | hx
      · exact hcur x hx
      · rw [hx]; exact hQ nA hAB.1
      · rw [hx]; exact hQ nB hAB.2

theorem swapRefine_core (accounts : List Account) (reps : List Rep)
    (strategy : DistributionStrategy) (config : StrategyConfig) :
    (swapRefine accounts reps strategy config).map core = accounts.map core := by
  unfold swapRefine
  split
  · rfl
  · rw [swapGo_core]

theorem swapRefine_assigned (accounts : List Account) (reps : List Rep)
    (strategy : DistributionStrategy) (config : StrategyConfig) (Q : Option String → Prop)
    (hQ : ∀ n ∈ reps.map (·.Rep_Name), Q (some n))
    (hcur : ∀ b ∈ accounts, Q b.Assigned_Rep) :
    ∀ b ∈ swapRefine accounts reps strategy config, Q b.Assigned_Rep := by
  unfold swapRefine
  split
  · exact hcur
  · exact swapGo_assigned reps strategy config Q hQ _ accounts _ hcur

/-! ## Structure of the strategy wrappers and the orchestrator -/

theorem initialHeap_names : ∀ (reps : List Rep) (h0 : List HeapEntry),
    ((reps.foldl (fun h r => hpush h ⟨0, r.Rep_Name, 0⟩) h0).map (·.repName)).Perm
      (h0.map (·.repName) ++ reps.map (·.Rep_Name)) := by
  intro reps
  induction reps with
  | nil => intro h0; simp
  | cons r t ih =>
    intro h0
    rw [List.foldl_cons]
    refine (ih (hpush h0 ⟨0, r.Rep_Name, 0⟩)).trans ?_
    refine (List.Perm.append_right _ (hpush_names h0 ⟨0, r.Rep_Name, 0⟩)).trans ?_
    rw [List.append_assoc]
    refine List.Perm.append_left _ ?_
    simp

theorem initialHeap_length : ∀ (reps : List Rep) (h0 : List HeapEntry),
    (reps.foldl (fun h r => hpush h ⟨0, r.Rep_Name, 0⟩) h0).length =
      h0.length + reps.length := by
  intro reps
  induction reps with
  | nil => intro h0; simp
  | cons r t ih =>
    intro h0
    rw [List.foldl_cons, ih, hpush_length, List.length_cons]
    omega

theorem greedyBinPacking_core (accts : List Account) (reps : List Rep)
    (cfg : StrategyConfig) (hne : reps ≠ []) :
    (greedyBinPacking accts reps cfg).map core = (sortDesc accts).map core := by
  unfold greedyBinPacking
  rw [if_neg hne, greedyGo_core]

theorem greedyBinPacking_assigned (accts : List Account) (reps : List Rep)
    (cfg : StrategyConfig) (hne : reps ≠ []) :
    ∀ b ∈ greedyBinPacking accts reps cfg,
      ∃ n, b.Assigned_Rep = some n ∧ n ∈ reps.map (·.Rep_Name) := by
  unfold greedyBinPacking
  rw [if_neg hne]
  intro b hb
  have hlen : (reps.foldl (fun h r => hpush h ⟨0, r.Rep_Name, 0⟩) []).length = reps.length := by
    rw [initialHeap_length]; simp
  have hne2 : (reps.foldl (fun h r => hpush h ⟨0, r.Rep_Name, 0⟩) []) ≠ [] := by
    intro hcon
    rw [hcon] at hlen
    exact hne (List.length_eq_zero.mp hlen.symm)
  obtain ⟨n, hn, hmem⟩ := greedyGo_total (sortDesc accts) _ hne2 b hb
  refine ⟨n, hn, ?_⟩
  have := (initialHeap_names reps []).mem_iff.mp hmem
  simpa using this

theorem arrRiskBalance_core (accts : List Account) (reps : List Rep)
    (cfg : StrategyConfig) (hne : reps ≠ []) :
    (arrRiskBalance accts reps cfg).map core = (sortDesc accts).map core := by
  unfold arrRiskBalance
  rw [if_neg hne]
  exact linearGo_core ..

theorem arrRiskBalance_assigned (accts : List Account) (reps : List Rep)
    (cfg : StrategyConfig) (hne : reps ≠ []) :
    ∀ b ∈ arrRiskBalance accts reps cfg,
      ∃ n, b.Assigned_Rep = some n ∧ n ∈ reps.map (·.Rep_Name) := by
  unfold arrRiskBalance
  rw [if_neg hne]
  intro b hb
  exact linearGo_assigned reps _ _ hne _ _ b hb

theorem arrGeographyBalance_core (accts : List Account) (reps : List Rep)
    (cfg : StrategyConfig) (hne : reps ≠ []) :
    (arrGeographyBalance accts reps cfg).map core = (sortDesc accts).map core := by
  unfold arrGeographyBalance
  rw [if_neg hne]
  exact linearGo_core ..

theorem arrGeographyBalance_assigned (accts : List Account) (reps : List Rep)
    (cfg : StrategyConfig) (hne : reps ≠ []) :
    ∀ b ∈ arrGeographyBalance accts reps cfg,
      ∃ n, b.Assigned_Rep = some n ∧ n ∈ reps.map (·.Rep_Name) := by
  unfold arrGeographyBalance
  rw [if_neg hne]
  intro b hb
  exact linearGo_assigned reps _ _ hne _ _ b hb

theorem smartMultiFactor_core (accts : List Account) (reps : List Rep)
    (cfg : StrategyConfig) (hne : reps ≠ []) :
    (smartMultiFactor accts reps cfg).map core = (sortDesc accts).map core := by
  unfold smartMultiFactor
  rw [if_neg hne]
  exact linearGo_core ..

theorem smartMultiFactor_assigned (accts : List Account) (reps : List Rep)
    (cfg : StrategyConfig) (hne : reps ≠ []) :
    ∀ b ∈ smartMultiFactor accts reps cfg,
      ∃ n, b.Assigned_Rep = some n ∧ n ∈ reps.map (·.Rep_Name) := by
  unfold smartMultiFactor
  rw [if_neg hne]
  intro b hb
  exact linearGo_assigned reps _ _ hne _ _ b hb

theorem dispatch_nil_accts (strategy : DistributionStrategy) (cfg : StrategyConfig)
    (segReps : List Rep) : dispatch strategy cfg [] segReps = [] := by
  simp [dispatch]

theorem dispatch_nil_reps (strategy : DistributionStrategy) (cfg : StrategyConfig)
    (accts : List Account) :
    dispatch strategy cfg accts [] =
      if accts = [] then [] else accts.map fun a => { a with Assigned_Rep := none } := by
  by_cases h : accts = [] <;> simp [dispatch, h]

theorem dispatch_core (strategy : DistributionStrategy) (cfg : StrategyConfig)
    (accts : List Account) (segReps : List Rep) (hne : segReps ≠ []) (hane : accts ≠ []) :
    (dispatch strategy cfg accts segReps).map core = (sortDesc accts).map core := by
  unfold dispatch
  rw [if_neg hane, if_neg hne]
  have hcore : (match strategy with
      | .arrRisk => arrRiskBalance accts segReps cfg
      | .arrGeo => arrGeographyBalance accts segReps cfg
      | .smartMulti => smartMultiFactor accts segReps cfg
      | .pureARR => greedyBinPacking accts segReps cfg).map core =
      (sortDesc accts).map core := by
    cases strategy with
    | pureARR => exact greedyBinPacking_core accts segReps cfg hne
    | arrRisk => exact arrRiskBalance_core accts segReps cfg hne
    | arrGeo => exact arrGeographyBalance_core accts segReps cfg hne
    | smartMulti => exact smartMultiFactor_core accts segReps cfg hne
  cases he : cfg.enableSwapRefinement
  · dsimp only
    rw [if_neg (by simp)]
    exact hcore
  · dsimp only
    rw [if_pos rfl, swapRefine_core]
    exact hcore

theorem dispatch_assigned (strategy : DistributionStrategy) (cfg : StrategyConfig)
    (accts : List Account) (segReps : List Rep) (hne : segReps ≠ []) :
    ∀ b ∈ dispatch strategy cfg accts segReps,
      ∃ n, b.Assigned_Rep = some n ∧ n ∈ segReps.map (·.Rep_Name) := by
  by_cases hane : accts = []
  · subst hane
    rw [dispatch_nil_accts]
    intro b hb
    simp at hb
  · unfold dispatch
    rw [if_neg hane, if_neg hne]
    have hstrat : ∀ b ∈ (match strategy with
        | .arrRisk => arrRiskBalance accts segReps cfg
        | .arrGeo => arrGeographyBalance accts segReps cfg
        | .smartMulti => smartMultiFactor accts segReps cfg
        | .pureARR => greedyBinPacking accts segReps cfg : List Account),
        ∃ n, b.Assigned_Rep = some n ∧ n ∈ segReps.map (·.Rep_Name) := by
      cases strategy with
      | pureARR => exact greedyBinPacking_assigned accts segReps cfg hne
      | arrRisk => exact arrRiskBalance_assigned accts segReps cfg hne
      | arrGeo => exact arrGeographyBalance_assigned accts segReps cfg hne
      | smartMulti => exact smartMultiFactor_assigned accts segReps cfg hne
    cases he : cfg.enableSwapRefinement
    · dsimp only
      rw [if_neg (by simp)]
      exact hstrat
    · dsimp only
      rw [if_pos rfl]
      refine swapRefine_assigned _ segReps strategy cfg
        (fun o => ∃ n, o = some n ∧ n ∈ segReps.map (·.Rep_Name)) ?_ ?_
      · intro n hn; exact ⟨n, rfl, hn⟩
      · exact hstrat

/-! ## Orchestrator-level bookkeeping -/

theorem distributeAccounts_eq (accounts : List Account) (reps : List Rep)
    (strategy : DistributionStrategy) (config : StrategyConfig) :
    distributeAccounts accounts reps strategy config =
      dispatch strategy config
        (accounts.filter fun a => decide (a.Segment = some .Enterprise))
        (reps.filter fun r => decide (r.Segment = .Enterprise)) ++
      dispatch strategy config
        (accounts.filter fun a => decide (a.Segment = some .MidMarket))
        (reps.filter fun r => decide (r.Segment = .MidMarket)) := rfl

/-- Every account a segment's dispatch emits is one of that segment's input
accounts with (only) its assignment rewritten. -/
theorem dispatch_source (strategy : DistributionStrategy) (cfg : StrategyConfig)
    (accts : List Account) (segReps : List Rep) (b : Account)
    (hb : b ∈ dispatch strategy cfg accts segReps) : ∃ a ∈ accts, core b = core a := by
  by_cases hane : accts = []
  · subst hane
    rw [dispatch_nil_accts] at hb
    simp at hb
  · by_cases hne : segReps = []
    · subst hne
      rw [dispatch_nil_reps, if_neg hane] at hb
      obtain ⟨a, ha, rfl⟩ := List.mem_map.mp hb
      exact ⟨a, ha, by simp⟩
    · have hcb : core b ∈ (dispatch strategy cfg accts segReps).map core :=
        List.mem_map.mpr ⟨b, hb, rfl⟩
      rw [dispatch_core strategy cfg accts segReps hne hane] at hcb
      obtain ⟨a, ha, hcore⟩ := List.mem_map.mp hcb
      exact ⟨a, (sortDesc_perm accts).mem_iff.mp ha, hcore.symm⟩

theorem sumARR_of_map_core {l₁ l₂ : List Account} (h : l₁.map core = l₂.map core) :
    sumARR l₁ = sumARR l₂ := by
  unfold sumARR
  have h1 : l₁.map (·.ARR) = (l₁.map core).map (·.ARR) := by
    rw [List.map_map]; rfl
  have h2 : l₂.map (·.ARR) = (l₂.map core).map (·.ARR) := by
    rw [List.map_map]; rfl
  rw [h1, h2, h]

theorem sumARR_perm {l₁ l₂ : List Account} (h : l₁.Perm l₂) : sumARR l₁ = sumARR l₂ := by
  unfold sumARR
  exact (h.map (·.ARR)).sum_eq

theorem dispatch_sumARR (strategy : DistributionStrategy) (cfg : StrategyConfig)
    (accts : List Account) (segReps : List Rep) :
    sumARR (dispatch strategy cfg accts segReps) = sumARR accts := by
  by_cases hane : accts = []
  · subst hane
    rw [dispatch_nil_accts]
  · by_cases hne : segReps = []
    · subst hne
      rw [dispatch_nil_reps, if_neg hane]
      unfold sumARR
      rw [List.map_map]
      rfl
    · refine (sumARR_of_map_core (dispatch_core strategy cfg accts segReps hne hane)).trans
        (sumARR_perm (sortDesc_perm accts))

theorem sumARR_append (l₁ l₂ : List Account) :
    sumARR (l₁ ++ l₂) = sumARR l₁ + sumARR l₂ := by
  unfold sumARR
  rw [List.map_append, List.sum_append]

theorem load_append (l₁ l₂ : List Account) (n : String) :
    load (l₁ ++ l₂) n = load l₁ n + load l₂ n := by
  unfold load
  rw [List.filter_append, List.map_append, List.sum_append]

theorem load_eq_zero (l : List Account) (n : String)
    (h : ∀ b ∈ l, b.Assigned_Rep ≠ some n) : load l n = 0 := by
  unfold load
  have : l.filter (fun a => decide (a.Assigned_Rep = some n)) = [] := by
    rw [List.filter_eq_nil_iff]
    intro a ha
    simpa using h a ha
  rw [this]
  rfl

theorem sum_if_name (v : ℚ) : ∀ (names : List String) (n0 : String), names.Nodup →
    n0 ∈ names →
    (names.map fun n => if n0 = n then v else 0).sum = v := by
  intro names
  induction names with
  | nil => intro n0 _ h; simp at h
  | cons m t ih =>
    intro n0 hnd hmem
    rw [List.map_cons, List.sum_cons]
    rcases List.mem_cons.mp hmem with rfl | hmem
    · rw [if_pos rfl]
      have : (t.map fun n => if n0 = n then v else 0).sum = 0 := by
        have hz : ∀ x ∈ t.map fun n => if n0 = n then v else 0, x = 0 := by
          intro x hx
          obtain ⟨n, hn, rfl⟩ := List.mem_map.mp hx
          rw [if_neg]
          intro hc
          exact (List.nodup_cons.mp hnd).1 (hc ▸ hn)
        rw [List.sum_eq_zero hz]
      rw [this, add_zero]
    · rw [if_neg, ih n0 (List.nodup_cons.mp hnd).2 hmem, zero_add]
      intro hc
      exact (List.nodup_cons.mp hnd).1 (hc ▸ hmem)

/-- When every account is assigned to some pool name and pool names are
distinct, the per-name loads add up to the total revenue. -/
theorem load_sum_of_total (names : List String) (hnd : names.Nodup) :
    ∀ (l : List Account), (∀ b ∈ l, ∃ n ∈ names, b.Assigned_Rep = some n) →
      (names.map fun n => load l n).sum = sumARR l := by
  intro l
  induction l with
  | nil =>
    intro _
    have : ∀ x ∈ names.map fun n => load [] n, x = 0 := by
      intro x hx
      obtain ⟨n, _, rfl⟩ := List.mem_map.mp hx
      rfl
    rw [List.sum_eq_zero this]
    rfl
  | cons b t ih =>
    intro htot
    obtain ⟨n0, hn0, hb0⟩ := htot b (List.mem_cons_self b t)
    have hload : ∀ n, load (b :: t) n = (if n0 = n then b.ARR else 0) + load t n := by
      intro n
      unfold load
      rw [List.filter_cons]
      by_cases hne : n0 = n
      · subst hne
        rw [if_pos (by simp [hb0]), if_pos rfl, List.map_cons, List.sum_cons]
      · rw [if_neg (by simp [hb0, hne]), if_neg hne, zero_add]
    have hmap : (names.map fun n => load (b :: t) n) =
        names.map fun n => (if n0 = n then b.ARR else 0) + load t n := by
      exact List.map_congr_left fun n _ => hload n
    rw [hmap]
    have hsum : ∀ (ns : List String),
        (ns.map fun n => (if n0 = n then b.ARR else 0) + load t n).sum =
        (ns.map fun n => if n0 = n then b.ARR else 0).sum +
          (ns.map fun n => load t n).sum := by
      intro ns
      induction ns with
      | nil => simp
      | cons m u ihn =>
        simp only [List.map_cons, List.sum_cons, ihn]
        ring
    rw [hsum names, sum_if_name b.ARR names n0 hnd hn0,
      ih fun x hx => htot x (List.mem_cons_of_mem b hx)]
    unfold sumARR
    rw [List.map_cons, List.sum_cons]

/-- An account's segment survives dispatch. -/
theorem dispatch_segment_val (strategy : DistributionStrategy) (cfg : StrategyConfig)
    (accts : List Account) (segReps : List Rep) (s : Segment)
    (hseg : ∀ a ∈ accts, a.Segment = some s) :
    ∀ b ∈ dispatch strategy cfg accts segReps, b.Segment = some s := by
  intro b hb
  obtain ⟨a, ha, hcore⟩ := dispatch_source strategy cfg accts segReps b hb
  have : (core b).Segment = (core a).Segment := by rw [hcore]
  rw [core_Segment, core_Segment] at this
  rw [this]
  exact hseg a ha

/-- With globally distinct rep names, the name pools of two exclusive segment
filters are disjoint. -/
theorem names_filter_disjoint (reps : List Rep) (hnd : (reps.map (·.Rep_Name)).Nodup)
    (p q : Rep → Bool) (hpq : ∀ r, ¬(p r = true ∧ q r = true)) (n : String)
    (hp : n ∈ (reps.filter p).map (·.Rep_Name)) (hq : n ∈ (reps.filter q).map (·.Rep_Name)) :
    False := by
  induction reps with
  | nil => simp at hp
  | cons r t ih =>
    have hsub : ∀ (g : Rep → Bool), n ∈ (t.filter g).map (·.Rep_Name) →
        n ∈ t.map (·.Rep_Name) := by
      intro g hmem
      obtain ⟨x, hx, rfl⟩ := List.mem_map.mp hmem
      exact List.mem_map.mpr ⟨x, (List.mem_filter.mp hx).1, rfl⟩
    have hnd' : (t.map (·.Rep_Name)).Nodup := (List.nodup_cons.mp (by simpa using hnd)).2
    have hhead : r.Rep_Name ∉ t.map (·.Rep_Name) := (List.nodup_cons.mp (by simpa using hnd)).1
    rw [List.filter_cons] at hp hq
    by_cases hpr : p r = true
    · rw [if_pos hpr] at hp
      have hqr : ¬(q r = true) := fun hc => hpq r ⟨hpr, hc⟩
      rw [if_neg hqr] at hq
      rw [List.map_cons] at hp
      rcases List.mem_cons.mp hp with heq | hp'
      · exact hhead (heq ▸ hsub q hq)
      · exact ih hnd' hp' hq
    · rw [if_neg hpr] at hp
      by_cases hqr : q r = true
      · rw [if_pos hqr] at hq
        rw [List.map_cons] at hq
        rcases List.mem_cons.mp hq with heq | hq'
        · exact hhead (heq ▸ hsub p hp)
        · exact ih hnd' hp hq'
      · rw [if_neg hqr] at hq
        exact ih hnd' hp hq

/-- Within one run every account's segment is `some Enterprise` or
`some MidMarket` or `none`; the two segment filters partition the segmented
accounts. -/
theorem segmented_partition (accounts : List Account)
    (hseg : ∀ a ∈ accounts, a.Segment.isSome) :
    ((accounts.filter fun a => decide (a.Segment = some Segment.Enterprise)) ++
      (accounts.filter fun a => decide (a.Segment = some Segment.MidMarket))).Perm
      accounts := by
  refine filter_partition_perm _ _ accounts ?_
  intro a ha
  have := hseg a ha
  cases hs : a.Segment with
  | none => rw [hs] at this; simp at this
  | some s =>
    cases s with
    | Enterprise => left; simp [hs]
    | MidMarket => right; simp [hs]

theorem dispatch_nil_reps_assigned (strategy : DistributionStrategy) (cfg : StrategyConfig)
    (accts : List Account) : ∀ b ∈ dispatch strategy cfg accts [], b.Assigned_Rep = none := by
  intro b hb
  rw [dispatch_nil_reps] at hb
  split at hb
  · simp at hb
  · obtain ⟨a, _, rfl⟩ := List.mem_map.mp hb
    rfl

theorem dispatch_ids (strategy : DistributionStrategy) (cfg : StrategyConfig)
    (accts : List Account) (segReps : List Rep) :
    ((dispatch strategy cfg accts segReps).map (·.Account_ID)).Perm
      (accts.map (·.Account_ID)) := by
  by_cases hane : accts = []
  · subst hane
    rw [dispatch_nil_accts]
  · by_cases hne : segReps = []
    · subst hne
      rw [dispatch_nil_reps, if_neg hane, List.map_map]
      exact List.Perm.refl _
    · have h1 : (dispatch strategy cfg accts segReps).map (·.Account_ID) =
          ((dispatch strategy cfg accts segReps).map core).map (·.Account_ID) := by
        rw [List.map_map]; rfl
      have h2 : (sortDesc accts).map (·.Account_ID) =
          ((sortDesc accts).map core).map (·.Account_ID) := by
        rw [List.map_map]; rfl
      rw [h1, dispatch_core strategy cfg accts segReps hne hane, ← h2]
      exact (sortDesc_perm accts).map _

theorem filter_map_name_nodup (reps : List Rep) (hnd : (reps.map (·.Rep_Name)).Nodup)
    (p : Rep → Bool) : ((reps.filter p).map (·.Rep_Name)).Nodup := by
  have hs : (reps.filter p).Sublist reps := List.filter_sublist _
  exact (hs.map (·.Rep_Name)).nodup hnd

/-- C1 (amended): with every input account segmented and rep names unique,
`distributeAccounts` conserves total revenue, conserves each segment's revenue,
and, for a segment with a nonempty rep pool, the revenue assigned to that
segment's reps equals the segment's input revenue. -/
theorem C1_revenue_conservation (accounts : List Account) (reps : List Rep)
    (strategy : DistributionStrategy) (config : StrategyConfig)
    (hseg : ∀ a ∈ accounts, a.Segment.isSome)
    (hnames : (reps.map (·.Rep_Name)).Nodup) :
    sumARR (distributeAccounts accounts reps strategy config) = sumARR accounts ∧
    (∀ s : Segment,
      sumARR ((distributeAccounts accounts reps strategy config).filter
          fun b => decide (b.Segment = some s)) =
        sumARR (accounts.filter fun a => decide (a.Segment = some s))) ∧
    (∀ s : Segment, reps.filter (fun r => decide (r.Segment = s)) ≠ [] →
      ((reps.filter fun r => decide (r.Segment = s)).map
          fun r => load (distributeAccounts accounts reps strategy config) r.Rep_Name).sum =
        sumARR (accounts.filter fun a => decide (a.Segment = some s))) := by
  have hED : ∀ b ∈ dispatch strategy config
      (accounts.filter fun a => decide (a.Segment = some Segment.Enterprise))
      (reps.filter fun r => decide (r.Segment = Segment.Enterprise)),
      b.Segment = some Segment.Enterprise := by
    refine dispatch_segment_val _ _ _ _ _ ?_
    intro a ha
    simpa using (List.mem_filter.mp ha).2
  have hMD : ∀ b ∈ dispatch strategy config
      (accounts.filter fun a => decide (a.Segment = some Segment.MidMarket))
      (reps.filter fun r => decide (r.Segment = Segment.MidMarket)),
      b.Segment = some Segment.MidMarket := by
    refine dispatch_segment_val _ _ _ _ _ ?_
    intro a ha
    simpa using (List.mem_filter.mp ha).2
  refine ⟨?_, ?_, ?_⟩
  · rw [distributeAccounts_eq, sumARR_append, dispatch_sumARR, dispatch_sumARR]
    have hp := sumARR_perm (segmented_partition accounts hseg)
    rw [sumARR_append] at hp
    exact hp
  · intro s
    rw [distributeAccounts_eq]
    unfold sumARR
    rw [List.filter_append, List.map_append, List.sum_append]
    cases s with
    | Enterprise =>
      have h1 : (dispatch strategy config
          (accounts.filter fun a => decide (a.Segment = some Segment.Enterprise))
          (reps.filter fun r => decide (r.Segment = Segment.Enterprise))).filter
            (fun b => decide (b.Segment = some Segment.Enterprise)) =
          dispatch strategy config
            (accounts.filter fun a => decide (a.Segment = some Segment.Enterprise))
            (reps.filter fun r => decide (r.Segment = Segment.Enterprise)) := by
        rw [List.filter_eq_self]
        intro b hb
        simp [hED b hb]
      have h2 : (dispatch strategy config
          (accounts.filter fun a => decide (a.Segment = some Segment.MidMarket))
          (reps.filter fun r => decide (r.Segment = Segment.MidMarket))).filter
            (fun b => decide (b.Segment = some Segment.Enterprise)) = [] := by
        rw [List.filter_eq_nil_iff]
        intro b hb
        simp [hMD b hb]
      rw [h1, h2]
      have := dispatch_sumARR strategy config
        (accounts.filter fun a => decide (a.Segment = some Segment.Enterprise))
        (reps.filter fun r => decide (r.Segment = Segment.Enterprise))
      unfold sumARR at this
      rw [this]
      simp
    | MidMarket =>
      have h1 : (dispatch strategy config
          (accounts.filter fun a => decide (a.Segment = some Segment.MidMarket))
          (reps.filter fun r => decide (r.Segment = Segment.MidMarket))).filter
            (fun b => decide (b.Segment = some Segment.MidMarket)) =
          dispatch strategy config
            (accounts.filter fun a => decide (a.Segment = some Segment.MidMarket))
            (reps.filter fun r => decide (r.Segment = Segment.MidMarket)) := by
        rw [List.filter_eq_self]
        intro b hb
        simp [hMD b hb]
      have h2 : (dispatch strategy config
          (accounts.filter fun a => decide (a.Segment = some Segment.Enterprise))
          (reps.filter fun r => decide (r.Segment = Segment.Enterprise))).filter
            (fun b => decide (b.Segment = some Segment.MidMarket)) = [] := by
        rw [List.filter_eq_nil_iff]
        intro b hb
        simp [hED b hb]
      rw [h1, h2]
      have := dispatch_sumARR strategy config
        (accounts.filter fun a => decide (a.Segment = some Segment.MidMarket))
        (reps.filter fun r => decide (r.Segment = Segment.MidMarket))
      unfold sumARR at this
      rw [this]
      simp
  · intro s hpool
    have hgen : ∀ (sOther : Segment), sOther ≠ s →
        ∀ r ∈ reps.filter (fun r => decide (r.Segment = s)),
        load (dispatch strategy config
          (accounts.filter fun a => decide (a.Segment = some sOther))
          (reps.filter fun rr => decide (rr.Segment = sOther))) r.Rep_Name = 0 := by
      intro sOther hso r hr
      refine load_eq_zero _ _ ?_
      intro b hb hassigned
      by_cases hmm : (reps.filter fun rr => decide (rr.Segment = sOther)) = []
      · rw [hmm] at hb
        rw [dispatch_nil_reps_assigned strategy config _ b hb] at hassigned
        exact Option.noConfusion hassigned
      · obtain ⟨n, hn, hmemn⟩ := dispatch_assigned strategy config _ _ hmm b hb
        rw [hn] at hassigned
        have heq : n = r.Rep_Name := by simpa using hassigned
        rw [heq] at hmemn
        refine names_filter_disjoint reps hnames (fun rr => decide (rr.Segment = sOther))
          (fun rr => decide (rr.Segment = s)) ?_ r.Rep_Name hmemn ?_
        · rintro rr ⟨h1, h2⟩
          have e1 : rr.Segment = sOther := by simpa using h1
          have e2 : rr.Segment = s := by simpa using h2
          exact hso (e1 ▸ e2)
        · exact List.mem_map.mpr ⟨r, hr, rfl⟩
    have hmain : ∀ b ∈ dispatch strategy config
        (accounts.filter fun a => decide (a.Segment = some s))
        (reps.filter fun rr => decide (rr.Segment = s)),
        ∃ n ∈ (reps.filter fun rr => decide (rr.Segment = s)).map (·.Rep_Name),
          b.Assigned_Rep = some n := by
      intro b hb
      obtain ⟨n, hn, hmemn⟩ := dispatch_assigned strategy config _ _ hpool b hb
      exact ⟨n, hmemn, hn⟩
    have hsum := load_sum_of_total ((reps.filter fun rr => decide (rr.Segment = s)).map
        (·.Rep_Name)) (filter_map_name_nodup reps hnames _) _ hmain
    have hload_eq : ∀ r ∈ reps.filter (fun rr => decide (rr.Segment = s)),
        load (distributeAccounts accounts reps strategy config) r.Rep_Name =
          load (dispatch strategy config
            (accounts.filter fun a => decide (a.Segment = some s))
            (reps.filter fun rr => decide (rr.Segment = s))) r.Rep_Name := by
      intro r hr
      rw [distributeAccounts_eq, load_append]
      cases s with
      | Enterprise =>
        rw [hgen Segment.MidMarket (by simp) r hr, add_zero]
      | MidMarket =>
        rw [hgen Segment.Enterprise (by simp) r hr, zero_add]
    calc ((reps.filter fun rr => decide (rr.Segment = s)).map
            fun r => load (distributeAccounts accounts reps strategy config) r.Rep_Name).sum
        = ((reps.filter fun rr => decide (rr.Segment = s)).map
            fun r => load (dispatch strategy config
              (accounts.filter fun a => decide (a.Segment = some s))
              (reps.filter fun rr => decide (rr.Segment = s))) r.Rep_Name).sum := by
          exact congrArg List.sum (List.map_congr_left hload_eq)
      _ = sumARR (dispatch strategy config
            (accounts.filter fun a => decide (a.Segment = some s))
            (reps.filter fun rr => decide (rr.Segment = s))) := by
          rw [← hsum, List.map_map]
          rfl
      _ = sumARR (accounts.filter fun a => decide (a.Segment = some s)) :=
          dispatch_sumARR ..

/-- C2 (amended): with every input account segmented and distinct ids, every
input account id appears exactly once in the output of `distributeAccounts`. -/
theorem C2_completeness_no_duplication (accounts : List Account) (reps : List Rep)
    (strategy : DistributionStrategy) (config : StrategyConfig)
    (hseg : ∀ a ∈ accounts, a.Segment.isSome)
    (hids : (accounts.map (·.Account_ID)).Nodup) :
    ∀ id ∈ accounts.map (·.Account_ID),
      ((distributeAccounts accounts reps strategy config).map (·.Account_ID)).count id = 1 := by
  intro id hid
  have hperm : ((distributeAccounts accounts reps strategy config).map (·.Account_ID)).Perm
      (accounts.map (·.Account_ID)) := by
    rw [distributeAccounts_eq, List.map_append]
    refine ((dispatch_ids strategy config _ _).append (dispatch_ids strategy config _ _)).trans ?_
    rw [← List.map_append]
    exact (segmented_partition accounts hseg).map _
  rw [hperm.count_eq]
  exact List.count_eq_one_of_mem hids hid

/-- C3: no account is assigned across segments — whenever an output account
names a rep of the pool, that rep's segment is the account's segment (rep names
are unique per the data model). -/
theorem C3_segment_isolation (accounts : List Account) (reps : List Rep)
    (strategy : DistributionStrategy) (config : StrategyConfig)
    (hnames : (reps.map (·.Rep_Name)).Nodup) :
    ∀ b ∈ distributeAccounts accounts reps strategy config, ∀ rp ∈ reps,
      b.Assigned_Rep = some rp.Rep_Name → b.Segment = some rp.Segment := by
  intro b hb rp hrp hassigned
  rw [distributeAccounts_eq] at hb
  have main : ∀ (s : Segment), b ∈ dispatch strategy config
      (accounts.filter fun a => decide (a.Segment = some s))
      (reps.filter fun r => decide (r.Segment = s)) → b.Segment = some rp.Segment := by
    intro s hbs
    have hbseg : b.Segment = some s := by
      refine dispatch_segment_val strategy config _ _ s ?_ b hbs
      intro a ha
      simpa using (List.mem_filter.mp ha).2
    by_cases hpool : (reps.filter fun r => decide (r.Segment = s)) = []
    · rw [hpool] at hbs
      rw [dispatch_nil_reps_assigned strategy config _ b hbs] at hassigned
      exact Option.noConfusion hassigned
    · obtain ⟨n, hn, hmemn⟩ := dispatch_assigned strategy config _ _ hpool b hbs
      rw [hn] at hassigned
      have heq : n = rp.Rep_Name := by simpa using hassigned
      subst heq
      obtain ⟨r', hr', hname⟩ := List.mem_map.mp hmemn
      have hr'mem : r' ∈ reps := (List.mem_filter.mp hr').1
      have hr'seg : r'.Segment = s := by simpa using (List.mem_filter.mp hr').2
      have : r' = rp := List.inj_on_of_nodup_map hnames hr'mem hrp hname
      rw [hbseg, ← this, hr'seg]
  rcases List.mem_append.mp hb with hbe | hbm
  · exact main Segment.Enterprise hbe
  · exact main Segment.MidMarket hbm

theorem dispatch_nil_reps_map (strategy : DistributionStrategy) (cfg : StrategyConfig)
    (accts : List Account) :
    dispatch strategy cfg accts [] = accts.map fun a => { a with Assigned_Rep := none } := by
  rw [dispatch_nil_reps]
  by_cases h : accts = []
  · rw [if_pos h, h]
    rfl
  · rw [if_neg h]

/-- C9: a segment with no reps emits every one of its accounts, in input order,
with no assigned representative (so in particular each such output account is
unassigned), and a segment with no accounts contributes no output (the
embedding is total, so no exception can arise). -/
theorem C9_degenerate_pools (accounts : List Account) (reps : List Rep)
    (strategy : DistributionStrategy) (config : StrategyConfig) (s : Segment) :
    (reps.filter (fun r => decide (r.Segment = s)) = [] →
      (distributeAccounts accounts reps strategy config).filter
          (fun b => decide (b.Segment = some s)) =
        (accounts.filter fun a => decide (a.Segment = some s)).map
          fun a => { a with Assigned_Rep := none }) ∧
    (reps.filter (fun r => decide (r.Segment = s)) = [] →
      ∀ b ∈ distributeAccounts accounts reps strategy config,
        b.Segment = some s → b.Assigned_Rep = none) ∧
    (accounts.filter (fun a => decide (a.Segment = some s)) = [] →
      (distributeAccounts accounts reps strategy config).filter
        (fun b => decide (b.Segment = some s)) = []) := by
  have hsegval : ∀ (s' : Segment) (b : Account), b ∈ dispatch strategy config
      (accounts.filter fun a => decide (a.Segment = some s'))
      (reps.filter fun r => decide (r.Segment = s')) → b.Segment = some s' := by
    intro s' b hbs
    refine dispatch_segment_val strategy config _ _ s' ?_ b hbs
    intro a ha
    simpa using (List.mem_filter.mp ha).2
  have block : ∀ (s' : Segment), s' ≠ s →
      (dispatch strategy config
        (accounts.filter fun a => decide (a.Segment = some s'))
        (reps.filter fun r => decide (r.Segment = s'))).filter
          (fun b => decide (b.Segment = some s)) = [] := by
    intro s' hs'
    rw [List.filter_eq_nil_iff]
    intro b hbs
    have := hsegval s' b hbs
    simp [this, hs']
  have hself : (dispatch strategy config
      (accounts.filter fun a => decide (a.Segment = some s))
      (reps.filter fun r => decide (r.Segment = s))).filter
        (fun b => decide (b.Segment = some s)) =
      dispatch strategy config
        (accounts.filter fun a => decide (a.Segment = some s))
        (reps.filter fun r => decide (r.Segment = s)) := by
    rw [List.filter_eq_self]
    intro b hb
    simp [hsegval s b hb]
  have hslice : (distributeAccounts accounts reps strategy config).filter
      (fun b => decide (b.Segment = some s)) =
      dispatch strategy config
        (accounts.filter fun a => decide (a.Segment = some s))
        (reps.filter fun r => decide (r.Segment = s)) := by
    rw [distributeAccounts_eq, List.filter_append]
    cases s with
    | Enterprise =>
      rw [hself, block Segment.MidMarket (by simp), List.append_nil]
    | MidMarket =>
      rw [hself, block Segment.Enterprise (by simp)]
      rfl
  refine ⟨?_, ?_, ?_⟩
  · intro hpool
    rw [hslice, hpool, dispatch_nil_reps_map]
  · intro hpool b hb hbseg
    rw [distributeAccounts_eq] at hb
    rcases List.mem_append.mp hb with hbe | hbm
    · have hbE := hsegval Segment.Enterprise b hbe
      cases s with
      | Enterprise =>
        rw [hpool] at hbe
        exact dispatch_nil_reps_assigned strategy config _ b hbe
      | MidMarket => rw [hbE] at hbseg; exact absurd hbseg (by decide)
    · have hbM := hsegval Segment.MidMarket b hbm
      cases s with
      | Enterprise => rw [hbM] at hbseg; exact absurd hbseg (by decide)
      | MidMarket =>
        rw [hpool] at hbm
        exact dispatch_nil_reps_assigned strategy config _ b hbm
  · intro haccts
    rw [hslice, haccts, dispatch_nil_accts]

theorem dispatch_core_total (strategy : DistributionStrategy) (cfg : StrategyConfig)
    (accts : List Account) (segReps : List Rep) (hne : segReps ≠ []) :
    (dispatch strategy cfg accts segReps).map core = (sortDesc accts).map core := by
  by_cases hane : accts = []
  · subst hane
    rw [dispatch_nil_accts]
    rfl
  · exact dispatch_core strategy cfg accts segReps hne hane

/-- C10 (amended): when both segment rep pools are nonempty, the output of
`distributeAccounts` is the Enterprise accounts followed by the Mid Market
accounts, each block equal (up to the rewritten `Assigned_Rep`) to the stable
descending-`ARR` sort of that segment's input: within a block the `ARR`s are
descending and equal-`ARR` accounts keep their relative input order.  (A segment
whose rep pool is empty keeps its input order instead.) -/
theorem C10_output_ordering (accounts : List Account) (reps : List Rep)
    (strategy : DistributionStrategy) (config : StrategyConfig)
    (hent : reps.filter (fun r => decide (r.Segment = Segment.Enterprise)) ≠ [])
    (hmm : reps.filter (fun r => decide (r.Segment = Segment.MidMarket)) ≠ []) :
    (distributeAccounts accounts reps strategy config).map core =
      (sortDesc (accounts.filter fun a => decide (a.Segment = some Segment.Enterprise))).map core
        ++
      (sortDesc (accounts.filter fun a => decide (a.Segment = some Segment.MidMarket))).map core
    ∧ (sortDesc (accounts.filter fun a =>
        decide (a.Segment = some Segment.Enterprise))).Pairwise (fun x y => y.ARR ≤ x.ARR)
    ∧ (sortDesc (accounts.filter fun a =>
        decide (a.Segment = some Segment.MidMarket))).Pairwise (fun x y => y.ARR ≤ x.ARR)
    ∧ (∀ q : ℚ,
        (sortDesc (accounts.filter fun a => decide (a.Segment = some Segment.Enterprise))).filter
            (fun a => decide (a.ARR = q)) =
          (accounts.filter fun a => decide (a.Segment = some Segment.Enterprise)).filter
            fun a => decide (a.ARR = q))
    ∧ (∀ q : ℚ,
        (sortDesc (accounts.filter fun a => decide (a.Segment = some Segment.MidMarket))).filter
            (fun a => decide (a.ARR = q)) =
          (accounts.filter fun a => decide (a.Segment = some Segment.MidMarket)).filter
            fun a => decide (a.ARR = q)) := by
  refine ⟨?_, sortDesc_pairwise _, sortDesc_pairwise _,
    fun q => sortDesc_stable _ q, fun q => sortDesc_stable _ q⟩
  rw [distributeAccounts_eq, List.map_append,
    dispatch_core_total strategy config _ _ hent, dispatch_core_total strategy config _ _ hmm]

/-! ## The linear-scan selection loop picks the first minimum -/

/-- The selection fold after its first step: current best name and best cost,
scanning the remaining reps with a strict comparison. -/
def selectGo (cost : Rep → ℚ) : String → ℚ → List Rep → String × ℚ
  | n, m, [] => (n, m)
  | n, m, r :: t => if cost r < m then selectGo cost r.Rep_Name (cost r) t else selectGo cost n m t

theorem selectFold_eq_selectGo (cost : Rep → ℚ) :
    ∀ (t : List Rep) (n : String) (m : ℚ),
      (t.foldl
        (fun best rep =>
          match best.2 with
          | none => (rep.Rep_Name, some (cost rep))
          | some m => if cost rep < m then (rep.Rep_Name, some (cost rep)) else best)
        (n, some m)) =
      ((selectGo cost n m t).1, some (selectGo cost n m t).2) := by
  intro t
  induction t with
  | nil => intro n m; rfl
  | cons r u ih =>
    intro n m
    rw [List.foldl_cons, selectGo]
    dsimp only
    by_cases hc : cost r < m
    · simp only [if_pos hc]
      exact ih r.Rep_Name (cost r)
    · simp only [if_neg hc]
      exact ih n m

theorem selectRep_cons (cost : Rep → ℚ) (r0 : Rep) (rest : List Rep) :
    selectRep (r0 :: rest) cost = (selectGo cost r0.Rep_Name (cost r0) rest).1 := by
  unfold selectRep
  rw [List.foldl_cons]
  dsimp only [List.headD]
  rw [selectFold_eq_selectGo]

theorem selectGo_spec (cost : Rep → ℚ) :
    ∀ (l : List Rep) (n : String) (m : ℚ),
      (selectGo cost n m l = (n, m) ∧ ∀ r ∈ l, m ≤ cost r) ∨
      (∃ l1 r l2, l = l1 ++ r :: l2 ∧ selectGo cost n m l = (r.Rep_Name, cost r) ∧
        cost r < m ∧ (∀ x ∈ l1, cost r < cost x) ∧ (∀ x ∈ l2, cost r ≤ cost x)) := by
  intro l
  induction l with
  | nil => intro n m; left; exact ⟨rfl, by simp⟩
  | cons r0 t ih =>
    intro n m
    rw [selectGo]
    by_cases hc : cost r0 < m
    · rw [if_pos hc]
      rcases ih r0.Rep_Name (cost r0) with ⟨heq, hall⟩ | ⟨l1, r, l2, rfl, heq, hlt, hl1, hl2⟩
      · right
        exact ⟨[], r0, t, rfl, heq, hc, by simp, hall⟩
      · right
        refine ⟨r0 :: l1, r, l2, rfl, heq, lt_trans hlt hc, ?_, hl2⟩
        intro x hx
        rcases List.mem_cons.mp hx with rfl | hx
        · exact hlt
        · exact hl1 x hx
    · rw [if_neg hc]
      rcases ih n m with ⟨heq, hall⟩ | ⟨l1, r, l2, rfl, heq, hlt, hl1, hl2⟩
      · left
        refine ⟨heq, ?_⟩
        intro x hx
        rcases List.mem_cons.mp hx with rfl | hx
        · exact le_of_not_lt hc
        · exact hall x hx
      · right
        refine ⟨r0 :: l1, r, l2, rfl, heq, hlt, ?_, hl2⟩
        intro x hx
        rcases List.mem_cons.mp hx with rfl | hx
        · exact lt_of_lt_of_le hlt (le_of_not_lt hc)
        · exact hl1 x hx

/-- C4 (amended): in the linear-scan selection loop shared by the risk,
geography and multi-factor strategies, the selected representative is the first
one in pool iteration order attaining the minimum cost.  (The revenue-only
strategy selects through the min-heap, whose tie order differs — see the
counterexample.) -/
theorem C4_linear_scan_tie_break (reps : List Rep) (cost : Rep → ℚ) (hne : reps ≠ []) :
    ∃ l1 r l2, reps = l1 ++ r :: l2 ∧ selectRep reps cost = r.Rep_Name ∧
      (∀ x ∈ l1, cost r < cost x) ∧ (∀ x ∈ reps, cost r ≤ cost x) := by
  cases reps with
  | nil => exact absurd rfl hne
  | cons r0 rest =>
    rw [selectRep_cons]
    rcases selectGo_spec cost rest r0.Rep_Name (cost r0) with
      ⟨heq, hall⟩ | ⟨l1, r, l2, rfl, heq, hlt, hl1, hl2⟩
    · refine ⟨[], r0, rest, rfl, by rw [heq], by simp, ?_⟩
      intro x hx
      rcases List.mem_cons.mp hx with rfl | hx
      · exact le_refl _
      · exact hall x hx
    · refine ⟨r0 :: l1, r, l2, rfl, by rw [heq], ?_, ?_⟩
      · intro x hx
        rcases List.mem_cons.mp hx with rfl | hx
        · exact hlt
        · exact hl1 x hx
      · intro x hx
        rcases List.mem_cons.mp hx with rfl | hx
        · exact le_of_lt hlt
        · rcases List.mem_append.mp hx with hx | hx
          · exact le_of_lt (hl1 x hx)
          · rcases List.mem_cons.mp hx with rfl | hx
            · exact le_refl _
            · exact hl2 x hx

/-! ## Refinement off-switch -/

theorem swapRefine_zero_iterations (accounts : List Account) (reps : List Rep)
    (strategy : DistributionStrategy) (cfg : StrategyConfig)
    (h : cfg.maxSwapIterations = 0) : swapRefine accounts reps strategy cfg = accounts := by
  unfold swapRefine
  split
  · rfl
  · rw [h]
    rfl

/-- C7: running `distributeAccounts` with refinement enabled but
`maxSwapIterations = 0` yields exactly the same output as running it with
refinement disabled. -/
theorem C7_off_switch_equivalence (accounts : List Account) (reps : List Rep)
    (strategy : DistributionStrategy) (config : StrategyConfig) :
    distributeAccounts accounts reps strategy
        { config with enableSwapRefinement := true, maxSwapIterations := 0 } =
      distributeAccounts accounts reps strategy
        { config with enableSwapRefinement := false } := by
  have hdispatch : ∀ (accts : List Account) (segReps : List Rep),
      dispatch strategy { config with enableSwapRefinement := true, maxSwapIterations := 0 }
          accts segReps =
        dispatch strategy { config with enableSwapRefinement := false } accts segReps := by
    intro accts segReps
    unfold dispatch
    by_cases hane : accts = []
    · rw [if_pos hane, if_pos hane]
    · rw [if_neg hane, if_neg hane]
      by_cases hne : segReps = []
      · rw [if_pos hne, if_pos hne]
      · rw [if_neg hne, if_neg hne]
        dsimp only
        rw [if_pos rfl, if_neg (by simp), swapRefine_zero_iterations _ _ _ _ rfl]
        cases strategy <;> rfl
  rw [distributeAccounts_eq, distributeAccounts_eq, hdispatch, hdispatch]

/-! ## Risk dead zone -/

/-- C8: the risk adjustment in the risk-aware and multi-factor cost models is
applied only to a high-risk account against a rep that already holds at least
one account; the penalty is added exactly above the 0.40 high-risk fraction,
the bonus subtracted exactly below 0.20, the closed band [0.20, 0.40] and the
first account get no adjustment.  (`arrRiskBalance` instantiates `pen`/`bon` as
`avgARRPerRep * riskPenaltyPct/100` and `avgARRPerRep * riskBonusPct/100`;
`smartMultiFactor` likewise with its own percentages.) -/
theorem C8_risk_dead_zone (thr pen bon target wpen g : ℚ) (a : Account) (s : RunStats)
    (r : Rep) :
    ((¬(a.Risk_Score > thr) ∨ s.count = 0) →
      arrRiskCost thr pen bon a s r = s.totalARR ∧
      multiCost thr target wpen g pen bon a s r =
        s.totalARR + (if (s.count : ℚ) > target * (11/10) then wpen else 0)
          - (if a.Location = r.Location then g else 0)) ∧
    (a.Risk_Score > thr → 0 < s.count → (s.highRiskCount : ℚ) / (s.count : ℚ) > 2/5 →
      arrRiskCost thr pen bon a s r = s.totalARR + pen ∧
      multiCost thr target wpen g pen bon a s r =
        s.totalARR + (if (s.count : ℚ) > target * (11/10) then wpen else 0)
          - (if a.Location = r.Location then g else 0) + pen) ∧
    (a.Risk_Score > thr → 0 < s.count → (s.highRiskCount : ℚ) / (s.count : ℚ) < 1/5 →
      arrRiskCost thr pen bon a s r = s.totalARR - bon ∧
      multiCost thr target wpen g pen bon a s r =
        s.totalARR + (if (s.count : ℚ) > target * (11/10) then wpen else 0)
          - (if a.Location = r.Location then g else 0) - bon) ∧
    (a.Risk_Score > thr → 0 < s.count → 1/5 ≤ (s.highRiskCount : ℚ) / (s.count : ℚ) →
      (s.highRiskCount : ℚ) / (s.count : ℚ) ≤ 2/5 →
      arrRiskCost thr pen bon a s r = s.totalARR ∧
      multiCost thr target wpen g pen bon a s r =
        s.totalARR + (if (s.count : ℚ) > target * (11/10) then wpen else 0)
          - (if a.Location = r.Location then g else 0)) := by
  unfold arrRiskCost multiCost riskAdjust
  refine ⟨?_, ?_, ?_, ?_⟩
  · intro h
    have hcond : ¬(a.Risk_Score > thr ∧ 0 < s.count) := by
      rcases h with h | h
      · exact fun hc => h hc.1
      · exact fun hc => by omega
    rw [if_neg hcond]
    constructor <;> ring
  · intro h1 h2 h3
    rw [if_pos ⟨h1, h2⟩, if_pos h3]
    constructor <;> ring
  · intro h1 h2 h3
    rw [if_pos ⟨h1, h2⟩, if_neg (by linarith), if_pos h3]
    constructor <;> ring
  · intro h1 h2 h3 h4
    rw [if_pos ⟨h1, h2⟩, if_neg (by linarith), if_neg (by linarith)]
    constructor <;> ring

/-! ## Heap correctness: the popped entry has the minimum key

Needed for the greedy balance bound (C5): `greedyBinPacking` always gives the
next account to a representative of smallest running revenue. -/

/-- The key stored at position `i` (`0` entry beyond the end). -/
def keyAt (l : List HeapEntry) (i : Nat) : ℚ := (l.getD i default).key

/-- The binary min-heap shape invariant of the backing array. -/
def HeapProp (l : List HeapEntry) : Prop :=
  ∀ j, 0 < j → j < l.length → keyAt l ((j - 1) / 2) ≤ keyAt l j

theorem getD_set_ne {α : Type} [Inhabited α] (l : List α) (i j : Nat) (x : α) (h : i ≠ j) :
    (l.set i x).getD j default = l.getD j default := by
  simp only [List.getD]
  rw [List.get?_set_ne x l h]

theorem getD_set_eq {α : Type} [Inhabited α] (l : List α) (i : Nat) (x : α)
    (h : i < l.length) : (l.set i x).getD i default = x := by
  simp only [List.getD]
  rw [List.get?_set_eq_of_lt x h]
  rfl

theorem keyAt_hswap (l : List HeapEntry) (a b : Nat) (ha : a < l.length) (hb : b < l.length)
    (hab : a ≠ b) (x : Nat) :
    keyAt (hswap l a b) x = if x = a then keyAt l b else if x = b then keyAt l a
      else keyAt l x := by
  unfold hswap keyAt
  by_cases hxb : x = b
  · subst hxb
    rw [if_neg (fun hc => hab hc.symm), if_pos rfl]
    rw [getD_set_eq _ _ _ (by simpa using hb)]
  · rw [getD_set_ne _ _ _ _ (fun hc => hxb hc.symm)]
    by_cases hxa : x = a
    · subst hxa
      rw [if_pos rfl, getD_set_eq _ _ _ ha]
    · rw [getD_set_ne _ _ _ _ (fun hc => hxa hc.symm), if_neg hxa, if_neg hxb]

theorem heapProp_root_le (l : List HeapEntry) (hp : HeapProp l) :
    ∀ j, j < l.length → keyAt l 0 ≤ keyAt l j := by
  intro j
  induction j using Nat.strong_induction_on with
  | _ j ih =>
    intro hj
    rcases Nat.eq_zero_or_pos j with rfl | hpos
    · exact le_refl _
    · exact le_trans (ih ((j - 1) / 2) (by omega) (by omega)) (hp j hpos hj)

theorem smallestIdx_self (l : List HeapEntry) (i : Nat) (h : smallestIdx l i = i) :
    (2 * i + 1 < l.length → keyAt l i ≤ keyAt l (2 * i + 1)) ∧
    (2 * i + 2 < l.length → keyAt l i ≤ keyAt l (2 * i + 2)) := by
  unfold smallestIdx at h
  unfold keyAt
  by_cases h1 : 2 * i + 1 < l.length ∧ (l.getD (2 * i + 1) default).key < (l.getD i default).key
  · rw [if_pos h1] at h
    by_cases h2 : 2 * i + 2 < l.length ∧
        (l.getD (2 * i + 2) default).key < (l.getD (2 * i + 1) default).key
    · rw [if_pos h2] at h; omega
    · rw [if_neg h2] at h; omega
  · rw [if_neg h1] at h
    by_cases h2 : 2 * i + 2 < l.length ∧
        (l.getD (2 * i + 2) default).key < (l.getD i default).key
    · rw [if_pos h2] at h; omega
    · constructor
      · intro hlt
        by_contra hcon
        exact h1 ⟨hlt, lt_of_not_le hcon⟩
      · intro hlt
        by_contra hcon
        exact h2 ⟨hlt, lt_of_not_le hcon⟩

theorem smallestIdx_ne (l : List HeapEntry) (i : Nat) (h : smallestIdx l i ≠ i) :
    (smallestIdx l i = 2 * i + 1 ∨ smallestIdx l i = 2 * i + 2) ∧
    smallestIdx l i < l.length ∧
    keyAt l (smallestIdx l i) < keyAt l i ∧
    (∀ c, (c = 2 * i + 1 ∨ c = 2 * i + 2) → c < l.length →
      keyAt l (smallestIdx l i) ≤ keyAt l c) := by
  unfold smallestIdx at h ⊢
  unfold keyAt
  by_cases h1 : 2 * i + 1 < l.length ∧ (l.getD (2 * i + 1) default).key < (l.getD i default).key
  · rw [if_pos h1] at h ⊢
    by_cases h2 : 2 * i + 2 < l.length ∧
        (l.getD (2 * i + 2) default).key < (l.getD (2 * i + 1) default).key
    · rw [if_pos h2] at h ⊢
      refine ⟨Or.inr rfl, h2.1, by linarith [h1.2, h2.2], ?_⟩
      rintro c (rfl | rfl) hc
      · linarith [h2.2]
      · exact le_refl _
    · rw [if_neg h2] at h ⊢
      refine ⟨Or.inl rfl, h1.1, h1.2, ?_⟩
      rintro c (rfl | rfl) hc
      · exact le_refl _
      · by_contra hcon
        exact h2 ⟨hc, lt_of_not_le hcon⟩
  · rw [if_neg h1] at h ⊢
    by_cases h2 : 2 * i + 2 < l.length ∧
        (l.getD (2 * i + 2) default).key < (l.getD i default).key
    · rw [if_pos h2] at h ⊢
      refine ⟨Or.inr rfl, h2.1, h2.2, ?_⟩
      rintro c (rfl | rfl) hc
      · have : ¬((l.getD (2 * i + 1) default).key < (l.getD i default).key) :=
          fun hcon => h1 ⟨hc, hcon⟩
        linarith [h2.2, le_of_not_lt this]
      · exact le_refl _
    · rw [if_neg h2] at h ⊢
      exact absurd rfl h

/-- During `siftUp`, the heap shape holds everywhere except possibly on the
edge into `i`, and `i`'s children are already at least `i`'s parent. -/
def SiftUpInv (l : List HeapEntry) (i : Nat) : Prop :=
  (∀ j, 0 < j → j < l.length → j ≠ i → keyAt l ((j - 1) / 2) ≤ keyAt l j) ∧
  (∀ j, 0 < j → j < l.length → (j - 1) / 2 = i → keyAt l ((i - 1) / 2) ≤ keyAt l j)

theorem siftUp_heapProp : ∀ (i : Nat) (l : List HeapEntry), i < l.length → SiftUpInv l i →
    HeapProp (siftUp l i) := by
  intro i
  induction i using Nat.strong_induction_on with
  | _ i ih =>
    intro l hi hinv
    rw [siftUp]
    by_cases h0 : i = 0
    · rw [dif_pos h0]
      intro j hj hjlen
      exact hinv.1 j hj hjlen (by omega)
    · rw [dif_neg h0]
      by_cases hok : (l.getD ((i - 1) / 2) default).key ≤ (l.getD i default).key
      · rw [if_pos hok]
        intro j hj hjlen
        by_cases hji : j = i
        · subst hji; exact hok
        · exact hinv.1 j hj hjlen hji
      · rw [if_neg hok]
        have hpi : (i - 1) / 2 < i := by omega
        have hplen : (i - 1) / 2 < l.length := lt_trans hpi hi
        have hlen' : (hswap l ((i - 1) / 2) i).length = l.length := hswap_length ..
        have hK := keyAt_hswap l ((i - 1) / 2) i hplen hi (by omega)
        have hlt : keyAt l i < keyAt l ((i - 1) / 2) := lt_of_not_le hok
        refine ih ((i - 1) / 2) hpi (hswap l ((i - 1) / 2) i) (by omega) ⟨?_, ?_⟩
        · intro j hj hjlen hjp
          rw [hlen'] at hjlen
          rw [hK j, hK ((j - 1) / 2)]
          by_cases hji : j = i
          · subst hji
            rw [if_pos rfl, if_neg (by omega), if_pos rfl]
            exact le_of_lt hlt
          · rw [if_neg hji, if_neg hjp]
            by_cases hqi : (j - 1) / 2 = i
            · rw [if_neg (by omega), if_pos hqi]
              exact hinv.2 j hj hjlen hqi
            · by_cases hqp : (j - 1) / 2 = (i - 1) / 2
              · rw [if_pos hqp]
                exact le_trans (le_of_lt hlt)
                  (by rw [← hqp]; exact hinv.1 j hj hjlen hji)
              · rw [if_neg hqp, if_neg hqi]
                exact hinv.1 j hj hjlen hji
        · intro j hj hjlen hjq
          rw [hlen'] at hjlen
          have hjgt : (i - 1) / 2 < j := by omega
          rw [hK j, hK (((i - 1) / 2 - 1) / 2)]
          by_cases hp0 : (i - 1) / 2 = 0
          · have hq2 : ((i - 1) / 2 - 1) / 2 = (i - 1) / 2 := by omega
            rw [hq2, if_pos rfl]
            by_cases hji : j = i
            · subst hji
              rw [if_neg (by omega), if_pos rfl]
              exact le_of_lt hlt
            · rw [if_neg (by omega), if_neg hji]
              exact le_trans (le_of_lt hlt) (by rw [← hjq]; exact hinv.1 j hj hjlen hji)
          · have hq2p : ((i - 1) / 2 - 1) / 2 ≠ (i - 1) / 2 := by omega
            have hq2i : ((i - 1) / 2 - 1) / 2 ≠ i := by omega
            rw [if_neg hq2i, if_neg hq2p]
            have hedge : keyAt l (((i - 1) / 2 - 1) / 2) ≤ keyAt l ((i - 1) / 2) :=
              hinv.1 ((i - 1) / 2) (by omega) hplen (by omega)
            by_cases hji : j = i
            · subst hji
              rw [if_neg (by omega), if_pos rfl]
              exact hedge
            · rw [if_neg (by omega), if_neg hji]
              exact le_trans hedge (by rw [← hjq]; exact hinv.1 j hj hjlen hji)

/-- During `siftDown`, the heap shape holds everywhere except possibly on the
edges out of `i`, and `i`'s children are already at least `i`'s parent. -/
def SiftDownInv (l : List HeapEntry) (i : Nat) : Prop :=
  (∀ j, 0 < j → j < l.length → (j - 1) / 2 ≠ i → keyAt l ((j - 1) / 2) ≤ keyAt l j) ∧
  (∀ j, 0 < j → j < l.length → (j - 1) / 2 = i → 0 < i → keyAt l ((i - 1) / 2) ≤ keyAt l j)

theorem siftDown_eq_self (l : List HeapEntry) (i : Nat) (hs : smallestIdx l i = i) :
    siftDown l i = l := by
  rw [siftDown]
  simp [hs]

theorem siftDown_eq_step (l : List HeapEntry) (i : Nat) (hs : smallestIdx l i ≠ i) :
    siftDown l i = siftDown (hswap l (smallestIdx l i) i) (smallestIdx l i) := by
  rw [siftDown]
  simp [hs]

theorem siftDown_heapProp : ∀ (n : Nat) (l : List HeapEntry) (i : Nat), l.length - i ≤ n →
    SiftDownInv l i → HeapProp (siftDown l i) := by
  intro n
  induction n with
  | zero =>
    intro l i hn hinv
    have hs : smallestIdx l i = i := by
      rcases smallestIdx_eq_or l i with hs | hs
      · exact hs
      · omega
    rw [siftDown_eq_self l i hs]
    intro j hj hjlen
    by_cases hqi : (j - 1) / 2 = i
    · omega
    · exact hinv.1 j hj hjlen hqi
  | succ m ih =>
    intro l i hn hinv
    rcases smallestIdx_eq_or l i with hs | hs
    · rw [siftDown_eq_self l i hs]
      intro j hj hjlen
      by_cases hqi : (j - 1) / 2 = i
      · obtain ⟨hleft, hright⟩ := smallestIdx_self l i hs
        have : j = 2 * i + 1 ∨ j = 2 * i + 2 := by omega
        rcases this with rfl | rfl
        · rw [hqi]; exact hleft hjlen
        · rw [hqi]; exact hright hjlen
      · exact hinv.1 j hj hjlen hqi
    · rw [siftDown_eq_step l i (by omega)]
      obtain ⟨hchild, hslen, hslt, hsmin⟩ := smallestIdx_ne l i (by omega)
      have hilen : i < l.length := by omega
      have hsi : smallestIdx l i ≠ i := by omega
      have hlen' : (hswap l (smallestIdx l i) i).length = l.length := hswap_length ..
      have hK := keyAt_hswap l (smallestIdx l i) i hslen hilen hsi
      refine ih (hswap l (smallestIdx l i) i) (smallestIdx l i) (by omega) ⟨?_, ?_⟩
      · intro j hj hjlen hjq
        rw [hlen'] at hjlen
        rw [hK j, hK ((j - 1) / 2)]
        by_cases hjs : j = smallestIdx l i
        · have hqi : (j - 1) / 2 = i := by omega
          rw [if_pos hjs, if_neg (show ¬((j - 1) / 2 = smallestIdx l i) by omega),
            if_pos hqi]
          exact le_of_lt hslt
        · by_cases hji : j = i
          · have h1 : ¬((j - 1) / 2 = smallestIdx l i) := by omega
            have h2 : ¬((j - 1) / 2 = i) := by omega
            rw [if_neg hjs, if_pos hji, if_neg h1, if_neg h2]
            have hbound := hinv.2 (smallestIdx l i) (by omega) hslen (by omega) (by omega)
            have hj2 : (j - 1) / 2 = (i - 1) / 2 := by omega
            rw [hj2]
            exact hbound
          · rw [if_neg hjs, if_neg hji]
            by_cases hqi : (j - 1) / 2 = i
            · rw [if_neg (show ¬((j - 1) / 2 = smallestIdx l i) by omega), if_pos hqi]
              exact hsmin j (by omega) hjlen
            · rw [if_neg hjq, if_neg hqi]
              exact hinv.1 j hj hjlen hqi
      · intro j hj hjlen hjq hspos
        rw [hlen'] at hjlen
        have hqi : (smallestIdx l i - 1) / 2 = i := by omega
        rw [hK j, hK ((smallestIdx l i - 1) / 2), hqi,
          if_neg (show ¬(i = smallestIdx l i) by omega), if_pos rfl,
          if_neg (show ¬(j = smallestIdx l i) by omega),
          if_neg (show ¬(j = i) by omega)]
        have hedge := hinv.1 j hj hjlen (by omega)
        rw [hjq] at hedge
        exact hedge

theorem hpush_heapProp (l : List HeapEntry) (e : HeapEntry) (hp : HeapProp l) :
    HeapProp (hpush l e) := by
  unfold hpush
  refine siftUp_heapProp l.length (l ++ [e]) (by simp) ⟨?_, ?_⟩
  · intro j hj hjlen hji
    have hjl : j < l.length := by
      simp only [List.length_append, List.length_cons, List.length_nil] at hjlen
      omega
    have hql : (j - 1) / 2 < l.length := by omega
    unfold keyAt
    rw [List.getD_append _ _ default _ hjl, List.getD_append _ _ default _ hql]
    exact hp j hj hjl
  · intro j hj hjlen hjq
    have : j < l.length + 1 := by
      simpa using hjlen
    omega

theorem dropLast_getD {α : Type} [Inhabited α] (l : List α) (hne : l ≠ []) (j : Nat)
    (h : j < l.length - 1) : l.dropLast.getD j default = l.getD j default := by
  conv_rhs => rw [← dropLast_append_getLastD l hne default]
  rw [List.getD_append]
  rw [List.length_dropLast]
  omega

theorem hpop_heapProp (l : List HeapEntry) (e : HeapEntry) (h' : List HeapEntry)
    (hp : HeapProp l) (h : hpop l = some (e, h')) : HeapProp h' := by
  cases l with
  | nil => simp [hpop] at h
  | cons top rest =>
    simp only [hpop] at h
    split at h
    · rw [Option.some.injEq, Prod.mk.injEq] at h
      obtain ⟨rfl, rfl⟩ := h
      intro j hj hjlen
      simp at hjlen
    · next hrest =>
      rw [Option.some.injEq, Prod.mk.injEq] at h
      obtain ⟨rfl, rfl⟩ := h
      have hlen'' : ((top :: rest).dropLast.set 0 (rest.getLastD default)).length =
          (top :: rest).length - 1 := by
        rw [List.length_set, List.length_dropLast]
      refine siftDown_heapProp ((top :: rest).dropLast.set 0 (rest.getLastD default)).length
        _ 0 (by omega) ⟨?_, ?_⟩
      · intro j hj hjlen hjq
        rw [hlen''] at hjlen
        have hcne : (top :: rest) ≠ [] := by simp
        have hkey : ∀ x, 0 < x → x < (top :: rest).length - 1 →
            keyAt ((top :: rest).dropLast.set 0 (rest.getLastD default)) x =
              keyAt (top :: rest) x := by
          intro x hx hxlen
          unfold keyAt
          rw [getD_set_ne _ _ _ _ (by omega), dropLast_getD _ hcne _ hxlen]
        rw [hkey j hj hjlen, hkey ((j - 1) / 2) (by omega) (by omega)]
        exact hp j hj (by simp at hjlen ⊢; omega)
      · intro j hj hjlen hjq hcon
        exact absurd hcon (lt_irrefl 0)

theorem hpop_min (l : List HeapEntry) (e : HeapEntry) (h' : List HeapEntry)
    (hp : HeapProp l) (h : hpop l = some (e, h')) : ∀ x ∈ l, e.key ≤ x.key := by
  cases l with
  | nil => simp [hpop] at h
  | cons top rest =>
    have he : e = top := by
      simp only [hpop] at h
      split at h
      · rw [Option.some.injEq, Prod.mk.injEq] at h
        exact h.1.symm
      · rw [Option.some.injEq, Prod.mk.injEq] at h
        exact h.1.symm
    intro x hx
    obtain ⟨j, hjlen, hgetx⟩ := List.mem_iff_getElem.mp hx
    have h0 : keyAt (top :: rest) 0 ≤ keyAt (top :: rest) j :=
      heapProp_root_le (top :: rest) hp j hjlen
    unfold keyAt at h0
    rw [List.getD_eq_getElem _ _ hjlen, hgetx] at h0
    rw [he]
    exact h0

/-! ## The greedy loop keeps the loads within one account of each other -/

theorem load_cons (b : Account) (t : List Account) (n : String) :
    load (b :: t) n = (if b.Assigned_Rep = some n then b.ARR else 0) + load t n := by
  unfold load
  rw [List.filter_cons]
  by_cases hc : b.Assigned_Rep = some n
  · rw [if_pos (by simpa using hc), if_pos hc, List.map_cons, List.sum_cons]
  · rw [if_neg (by simpa using hc), if_neg hc, zero_add]

/-- The revenue the heap currently carries for `name`. -/
def heapARR (h : List HeapEntry) (name : String) : ℚ :=
  ((h.filter fun e => decide (e.repName = name)).map (·.currentARR)).sum

theorem heapARR_perm {h1 h2 : List HeapEntry} (hp : h1.Perm h2) (n : String) :
    heapARR h1 n = heapARR h2 n := by
  unfold heapARR
  exact ((hp.filter _).map _).sum_eq

theorem heapARR_cons (e : HeapEntry) (t : List HeapEntry) (n : String) :
    heapARR (e :: t) n = (if e.repName = n then e.currentARR else 0) + heapARR t n := by
  unfold heapARR
  rw [List.filter_cons]
  by_cases hc : e.repName = n
  · rw [if_pos (by simpa using hc), if_pos hc, List.map_cons, List.sum_cons]
  · rw [if_neg (by simpa using hc), if_neg hc, zero_add]

theorem heapARR_append (h1 h2 : List HeapEntry) (n : String) :
    heapARR (h1 ++ h2) n = heapARR h1 n + heapARR h2 n := by
  unfold heapARR
  rw [List.filter_append, List.map_append, List.sum_append]

theorem heapARR_not_mem (t : List HeapEntry) (n : String)
    (hn : n ∉ t.map (·.repName)) : heapARR t n = 0 := by
  induction t with
  | nil => rfl
  | cons e u ih =>
    rw [heapARR_cons, if_neg (fun hc => hn (List.mem_map.mpr ⟨e, List.mem_cons_self e u, hc⟩)),
      zero_add]
    exact ih fun hc => hn (by
      obtain ⟨x, hx, rfl⟩ := List.mem_map.mp hc
      exact List.mem_map.mpr ⟨x, List.mem_cons_of_mem e hx, rfl⟩)

theorem heapARR_entry (h : List HeapEntry) (hnd : (h.map (·.repName)).Nodup) (n : String)
    (hn : n ∈ h.map (·.repName)) :
    ∃ e ∈ h, e.repName = n ∧ heapARR h n = e.currentARR := by
  induction h with
  | nil => simp at hn
  | cons e t ih =>
    rw [List.map_cons, List.nodup_cons] at hnd
    by_cases hc : e.repName = n
    · refine ⟨e, List.mem_cons_self e t, hc, ?_⟩
      rw [heapARR_cons, if_pos hc, heapARR_not_mem t n (hc ▸ hnd.1), add_zero]
    · rw [List.map_cons] at hn
      rcases List.mem_cons.mp hn with rfl | hn
      · exact absurd rfl hc
      · obtain ⟨x, hx, hxn, hxa⟩ := ih hnd.2 hn
        refine ⟨x, List.mem_cons_of_mem e hx, hxn, ?_⟩
        rw [heapARR_cons, if_neg hc, zero_add, hxa]

theorem greedyGo_bound (M : ℚ) :
    ∀ (accs : List Account) (h : List HeapEntry),
      HeapProp h →
      (∀ e ∈ h, e.key = e.currentARR) →
      ((h.map (·.repName)).Nodup) →
      (∀ e1 ∈ h, ∀ e2 ∈ h, e1.currentARR ≤ e2.currentARR + M) →
      (∀ a ∈ accs, 0 ≤ a.ARR ∧ a.ARR ≤ M) →
      ∀ n1 ∈ h.map (·.repName), ∀ n2 ∈ h.map (·.repName),
        load (greedyGo accs h) n1 + heapARR h n1 ≤
          load (greedyGo accs h) n2 + heapARR h n2 + M := by
  intro accs
  induction accs with
  | nil =>
    intro h hp hkeys hnd hbound haccs n1 hn1 n2 hn2
    rw [greedyGo]
    obtain ⟨e1, he1, _, ha1⟩ := heapARR_entry h hnd n1 hn1
    obtain ⟨e2, he2, _, ha2⟩ := heapARR_entry h hnd n2 hn2
    have : load ([] : List Account) n1 = 0 := rfl
    rw [this]
    have : load ([] : List Account) n2 = 0 := rfl
    rw [this, ha1, ha2, zero_add, zero_add]
    exact hbound e1 he1 e2 he2
  | cons a rest ih =>
    intro h hp hkeys hnd hbound haccs n1 hn1 n2 hn2
    have hhne : h ≠ [] := by
      intro hcon
      rw [hcon] at hn1
      simp at hn1
    cases hpop_eq : hpop h with
    | none => exact absurd (hpop_none h |>.mp hpop_eq) hhne
    | some eh2 =>
      obtain ⟨e, h2pre⟩ := eh2
      have hperm : (e :: h2pre).Perm h := hpop_perm h e h2pre hpop_eq
      have hmem_e : e ∈ h := hperm.mem_iff.mp (List.mem_cons_self e h2pre)
      have hsub : ∀ x ∈ h2pre, x ∈ h := fun x hx =>
        hperm.mem_iff.mp (List.mem_cons_of_mem e hx)
      have hmin : ∀ x ∈ h, e.currentARR ≤ x.currentARR := by
        intro x hx
        have := hpop_min h e h2pre hp hpop_eq x hx
        rw [hkeys e hmem_e, hkeys x hx] at this
        exact this
      have ha_bounds := haccs a (List.mem_cons_self a rest)
      set newE : HeapEntry := ⟨e.currentARR + a.ARR, e.repName, e.currentARR + a.ARR⟩ with hnewE
      have hpush_perm2 : (hpush h2pre newE).Perm (h2pre ++ [newE]) := hpush_perm h2pre newE
      have hmem2 : ∀ x ∈ hpush h2pre newE, x ∈ h2pre ∨ x = newE := by
        intro x hx
        have := hpush_perm2.mem_iff.mp hx
        rcases List.mem_append.mp this with hx' | hx'
        · exact Or.inl hx'
        · exact Or.inr (by simpa using hx')
      have hnames2 : ((hpush h2pre newE).map (·.repName)).Perm (h.map (·.repName)) := by
        refine (hpush_names h2pre newE).trans ?_
        have h1 : (h2pre.map (·.repName) ++ [newE.repName]).Perm
            (newE.repName :: h2pre.map (·.repName)) := List.perm_append_singleton _ _
        refine h1.trans ?_
        have : newE.repName = e.repName := rfl
        rw [this]
        exact (hperm.map (·.repName))
      -- invariants for the recursive call
      have hp2 : HeapProp (hpush h2pre newE) :=
        hpush_heapProp h2pre newE (hpop_heapProp h e h2pre hp hpop_eq)
      have hkeys2 : ∀ x ∈ hpush h2pre newE, x.key = x.currentARR := by
        intro x hx
        rcases hmem2 x hx with hx' | rfl
        · exact hkeys x (hsub x hx')
        · rfl
      have hnd2 : ((hpush h2pre newE).map (·.repName)).Nodup :=
        (hnames2.nodup_iff).mpr hnd
      have hbound2 : ∀ x1 ∈ hpush h2pre newE, ∀ x2 ∈ hpush h2pre newE,
          x1.currentARR ≤ x2.currentARR + M := by
        intro x1 hx1 x2 hx2
        rcases hmem2 x1 hx1 with hx1' | rfl <;> rcases hmem2 x2 hx2 with hx2' | rfl
        · exact hbound x1 (hsub x1 hx1') x2 (hsub x2 hx2')
        · have : x1.currentARR ≤ e.currentARR + M := hbound x1 (hsub x1 hx1') e hmem_e
          have h2 : (0 : ℚ) ≤ a.ARR := ha_bounds.1
          rw [hnewE]
          dsimp only
          linarith
        · have : e.currentARR ≤ x2.currentARR := hmin x2 (hsub x2 hx2')
          have h2 : a.ARR ≤ M := ha_bounds.2
          rw [hnewE]
          dsimp only
          linarith
        · have h2 : (0 : ℚ) ≤ a.ARR := ha_bounds.1
          have h3 : a.ARR ≤ M := ha_bounds.2
          linarith
      have haccs2 : ∀ x ∈ rest, 0 ≤ x.ARR ∧ x.ARR ≤ M := fun x hx =>
        haccs x (List.mem_cons_of_mem a hx)
      have hboth := ih (hpush h2pre newE) hp2 hkeys2 hnd2 hbound2 haccs2
        n1 (hnames2.mem_iff.mpr hn1) n2 (hnames2.mem_iff.mpr hn2)
      -- translate loads and heap revenues across the step
      have hshift : ∀ n, load (greedyGo (a :: rest) h) n + heapARR h n =
          load (greedyGo rest (hpush h2pre newE)) n + heapARR (hpush h2pre newE) n := by
        intro n
        rw [greedyGo, hpop_eq]
        rw [load_cons]
        have hhA : heapARR (hpush h2pre newE) n =
            heapARR h2pre n + (if e.repName = n then e.currentARR + a.ARR else 0) := by
          rw [heapARR_perm hpush_perm2, heapARR_append, heapARR_cons, hnewE]
          dsimp only
          have hz : heapARR ([] : List HeapEntry) n = 0 := rfl
          rw [hz, add_zero]
        have hhB : heapARR h n = (if e.repName = n then e.currentARR else 0) + heapARR h2pre n := by
          rw [← heapARR_perm hperm, heapARR_cons]
        rw [hhA, hhB]
        by_cases hc : e.repName = n
        · rw [if_pos (by simpa using hc), if_pos hc, if_pos hc]
          ring
        · rw [if_neg (by simpa using hc), if_neg hc, if_neg hc]
          ring
      rw [hshift n1, hshift n2]
      exact hboth

theorem initialHeap_perm : ∀ (reps : List Rep) (h0 : List HeapEntry),
    (reps.foldl (fun h r => hpush h ⟨0, r.Rep_Name, 0⟩) h0).Perm
      (h0 ++ reps.map fun r => ⟨0, r.Rep_Name, 0⟩) := by
  intro reps
  induction reps with
  | nil => intro h0; simp
  | cons r t ih =>
    intro h0
    rw [List.foldl_cons]
    refine (ih (hpush h0 ⟨0, r.Rep_Name, 0⟩)).trans ?_
    refine (List.Perm.append_right _ (hpush_perm h0 ⟨0, r.Rep_Name, 0⟩)).trans ?_
    rw [List.append_assoc, List.map_cons]
    exact List.Perm.append_left _ (List.perm_middle.symm.trans (List.Perm.refl _))

theorem initialHeap_heapProp : ∀ (reps : List Rep) (h0 : List HeapEntry), HeapProp h0 →
    HeapProp (reps.foldl (fun h r => hpush h ⟨0, r.Rep_Name, 0⟩) h0) := by
  intro reps
  induction reps with
  | nil => intro h0 hp; exact hp
  | cons r t ih =>
    intro h0 hp
    rw [List.foldl_cons]
    exact ih _ (hpush_heapProp h0 _ hp)

theorem maxARR_nonneg (l : List Account) : 0 ≤ maxARR l := by
  unfold maxARR
  induction l with
  | nil => exact le_refl 0
  | cons a t ih =>
    rw [List.map_cons, List.foldr_cons]
    exact le_trans ih (le_max_right _ _)

theorem le_maxARR (l : List Account) (a : Account) (ha : a ∈ l) : a.ARR ≤ maxARR l := by
  unfold maxARR
  induction l with
  | nil => simp at ha
  | cons b t ih =>
    rw [List.map_cons, List.foldr_cons]
    rcases List.mem_cons.mp ha with rfl | ha
    · exact le_max_left _ _
    · exact le_trans (ih ha) (le_max_right _ _)

/-- The greedy strategy never lets one rep run more than one account's worth
of revenue ahead of another. -/
theorem greedyBinPacking_bound (accounts : List Account) (reps : List Rep)
    (cfg : StrategyConfig) (hnd : (reps.map (·.Rep_Name)).Nodup)
    (hnn : ∀ a ∈ accounts, 0 ≤ a.ARR) (hne : reps ≠ []) :
    ∀ r1 ∈ reps, ∀ r2 ∈ reps,
      load (greedyBinPacking accounts reps cfg) r1.Rep_Name ≤
        load (greedyBinPacking accounts reps cfg) r2.Rep_Name + maxARR accounts := by
  intro r1 hr1 r2 hr2
  unfold greedyBinPacking
  rw [if_neg hne]
  have hperm0 := initialHeap_perm reps []
  rw [List.nil_append] at hperm0
  have hnames0 : ((reps.foldl (fun h r => hpush h ⟨0, r.Rep_Name, 0⟩) []).map
      (·.repName)).Perm (reps.map (·.Rep_Name)) := by
    refine (hperm0.map (·.repName)).trans ?_
    rw [List.map_map]
    exact List.Perm.refl _
  have hmem0 : ∀ x ∈ reps.foldl (fun h r => hpush h ⟨0, r.Rep_Name, 0⟩) [],
      x.key = 0 ∧ x.currentARR = 0 := by
    intro x hx
    have := hperm0.mem_iff.mp hx
    obtain ⟨r, _, rfl⟩ := List.mem_map.mp this
    exact ⟨rfl, rfl⟩
  have hbound := greedyGo_bound (maxARR accounts) (sortDesc accounts)
    (reps.foldl (fun h r => hpush h ⟨0, r.Rep_Name, 0⟩) [])
    (initialHeap_heapProp reps [] (fun j hj hjlen => by simp at hjlen))
    (fun e he => by rw [(hmem0 e he).1, (hmem0 e he).2])
    (hnames0.nodup_iff.mpr hnd)
    (fun e1 he1 e2 he2 => by
      rw [(hmem0 e1 he1).2, (hmem0 e2 he2).2, zero_add]
      exact maxARR_nonneg accounts)
    (fun a ha => by
      have hmem : a ∈ accounts := (sortDesc_perm accounts).mem_iff.mp ha
      exact ⟨hnn a hmem, le_maxARR accounts a hmem⟩)
    r1.Rep_Name (hnames0.mem_iff.mpr (List.mem_map.mpr ⟨r1, hr1, rfl⟩))
    r2.Rep_Name (hnames0.mem_iff.mpr (List.mem_map.mpr ⟨r2, hr2, rfl⟩))
  have hz : ∀ n, heapARR (reps.foldl (fun h r => hpush h ⟨0, r.Rep_Name, 0⟩) []) n = 0 := by
    intro n
    unfold heapARR
    refine List.sum_eq_zero ?_
    intro x hx
    obtain ⟨y, hy, rfl⟩ := List.mem_map.mp hx
    exact (hmem0 y (List.mem_filter.mp hy).1).2
  rw [hz, hz, add_zero, add_zero] at hbound
  exact hbound

/-! ## The refinement pass under the Pure ARR Balance objective -/

/-- For the revenue-only strategy the global objective is exactly the sum of
squared deviations of the per-rep loads from `avgARRPerRep`. -/
theorem computeTotalCost_pure (l : List Account) (reps : List Rep) (cfg : StrategyConfig) :
    computeTotalCost l reps .pureARR cfg =
      (reps.map fun r => (load l r.Rep_Name -
        (if 0 < reps.length then sumARR l / (reps.length : ℚ) else 0)) ^ 2).sum := by
  unfold computeTotalCost
  dsimp only
  refine congrArg List.sum (List.map_congr_left fun r _ => ?_)
  rw [if_neg (by decide : ¬(DistributionStrategy.pureARR = DistributionStrategy.arrRisk ∨
      DistributionStrategy.pureARR = DistributionStrategy.smartMulti)),
    if_neg (by decide : ¬(DistributionStrategy.pureARR = DistributionStrategy.arrGeo ∨
      DistributionStrategy.pureARR = DistributionStrategy.smartMulti)),
    if_neg (by decide : ¬(DistributionStrategy.pureARR = DistributionStrategy.smartMulti))]
  unfold load sumARR
  ring

theorem load_set (b : Account) (n : String) :
    ∀ (l : List Account) (i : Nat), i < l.length →
      load (l.set i b) n = load l n
        - (if (l.getD i default).Assigned_Rep = some n then (l.getD i default).ARR else 0)
        + (if b.Assigned_Rep = some n then b.ARR else 0) := by
  intro l
  induction l with
  | nil => intro i hi; simp at hi
  | cons x t ih =>
    intro i hi
    cases i with
    | zero =>
      rw [List.set_cons_zero, load_cons, load_cons, List.getD_cons_zero]
      ring
    | succ m =>
      have hm : m < t.length := by simpa using hi
      rw [List.set_cons_succ, load_cons, load_cons, List.getD_cons_succ, ih m hm]
      ring

theorem sumARR_set_setRep (l : List Account) (i : Nat) (v : Option String) :
    sumARR (l.set i (setRep v (l.getD i default))) = sumARR l := by
  have := set_setRep_core l i v
  exact sumARR_of_map_core this

theorem applySwap_sumARR (cur : List Account) (iA iB : Nat) (nA nB : String) :
    sumARR (applySwap cur iA iB nA nB) = sumARR cur := by
  have := applySwap_core cur iA iB nA nB
  exact sumARR_of_map_core this

theorem applySwap_length (cur : List Account) (iA iB : Nat) (nA nB : String) :
    (applySwap cur iA iB nA nB).length = cur.length := by
  unfold applySwap
  rw [List.length_set, List.length_set]

/-- Loads after one tentative swap: account `iA` (assigned to `nA`) moves to
`nB` and account `iB` (assigned to `nB`) moves to `nA`. -/
theorem applySwap_load (cur : List Account) (iA iB : Nat) (nA nB : String)
    (hiA : iA < cur.length) (hA : (cur.getD iA default).Assigned_Rep = some nA)
    (hiB : iB < cur.length) (hB : (cur.getD iB default).Assigned_Rep = some nB)
    (hab : nA ≠ nB) (n : String) :
    load (applySwap cur iA iB nA nB) n = load cur n
      + (if nB = n then (cur.getD iA default).ARR else 0)
      - (if nA = n then (cur.getD iA default).ARR else 0)
      + (if nA = n then (cur.getD iB default).ARR else 0)
      - (if nB = n then (cur.getD iB default).ARR else 0) := by
  have hABidx : iA ≠ iB := by
    intro hcon
    rw [hcon, hB] at hA
    exact hab (by simpa using hA.symm)
  unfold applySwap
  dsimp only
  have hgetB : (cur.set iA (setRep (some nB) (cur.getD iA default))).getD iB default =
      cur.getD iB default := getD_set_ne _ _ _ _ hABidx
  have hlen1 : iB < (cur.set iA (setRep (some nB) (cur.getD iA default))).length := by
    rw [List.length_set]
    exact hiB
  rw [hgetB,
    load_set (setRep (some nA) (cur.getD iB default)) n
      (cur.set iA (setRep (some nB) (cur.getD iA default))) iB hlen1,
    hgetB,
    load_set (setRep (some nB) (cur.getD iA default)) n cur iA hiA]
  rw [hA, hB]
  dsimp only [setRep]
  by_cases hAn : nA = n <;> by_cases hBn : nB = n
  · exact absurd (hAn.trans hBn.symm) hab
  · simp only [hAn, hBn, if_pos rfl, Option.some.injEq, if_neg hBn,
      if_neg (show ¬(some nB = some n) from fun hc => hBn (by simpa using hc))]
    ring
  · simp only [hAn, hBn, if_pos rfl, Option.some.injEq, if_neg hAn,
      if_neg (show ¬(some nA = some n) from fun hc => hAn (by simpa using hc))]
    ring
  · simp only [Option.some.injEq, if_neg hAn, if_neg hBn]
    ring

theorem sum_map_eq_update1 (nB : String) (f g : String → ℚ)
    (hsame : ∀ n, n ≠ nB → f n = g n) :
    ∀ (names : List String), names.Nodup → nB ∈ names →
      (names.map f).sum = (names.map g).sum - g nB + f nB := by
  intro names
  induction names with
  | nil => intro _ h; simp at h
  | cons m t ih =>
    intro hnd hmem
    rw [List.map_cons, List.map_cons, List.sum_cons, List.sum_cons]
    rcases List.mem_cons.mp hmem with rfl | hmem
    · have hteq : t.map f = t.map g := by
        refine List.map_congr_left fun n hn => ?_
        exact hsame n fun hc => (List.nodup_cons.mp hnd).1 (hc ▸ hn)
      rw [hteq]
      ring
    · have hm : m ≠ nB := by
        intro hc
        exact (List.nodup_cons.mp hnd).1 (hc ▸ hmem)
      rw [hsame m hm, ih (List.nodup_cons.mp hnd).2 hmem]
      ring

theorem sum_map_eq_update2 (nA nB : String) (hab : nA ≠ nB) (f g : String → ℚ)
    (hsame : ∀ n, n ≠ nA → n ≠ nB → f n = g n) (names : List String)
    (hnd : names.Nodup) (hA : nA ∈ names) (hB : nB ∈ names) :
    (names.map f).sum = (names.map g).sum - g nA + f nA - g nB + f nB := by
  have h1 : (names.map f).sum =
      (names.map fun n => if n = nA then f n else g n).sum
        - (if nB = nA then f nB else g nB) + f nB := by
    refine sum_map_eq_update1 nB f (fun n => if n = nA then f n else g n) ?_ names hnd hB
    intro n hn
    dsimp only
    by_cases hc : n = nA
    · rw [if_pos hc]
    · rw [if_neg hc]
      exact hsame n hc hn
  have h2 : (names.map fun n => if n = nA then f n else g n).sum =
      (names.map g).sum - g nA + (if nA = nA then f nA else g nA) := by
    refine sum_map_eq_update1 nA (fun n => if n = nA then f n else g n) g ?_ names hnd hA
    intro n hn
    dsimp only
    rw [if_neg hn]
  rw [h1, h2, if_pos rfl, if_neg (fun hc => hab hc.symm)]

/-- The `avgARRPerRep` figure of the cost model. -/
def avgPure (l : List Account) (reps : List Rep) : ℚ :=
  if 0 < reps.length then sumARR l / (reps.length : ℚ) else 0

theorem computeTotalCost_pure_names (l : List Account) (reps : List Rep)
    (cfg : StrategyConfig) :
    computeTotalCost l reps .pureARR cfg =
      ((reps.map fun r => r.Rep_Name).map fun n => (load l n - avgPure l reps) ^ 2).sum := by
  rw [computeTotalCost_pure, List.map_map]
  rfl

theorem map_name_sum (reps : List Rep) (h : String → ℚ) :
    (reps.map fun r => h r.Rep_Name).sum = ((reps.map fun r => r.Rep_Name).map h).sum := by
  rw [List.map_map]
  rfl

/-- A swap accepted by the pure-ARR objective moves both touched loads strictly
inside the interval spanned by their old values. -/
theorem pair_bounds (X Y Xp Yp c : ℚ) (hsum : Xp + Yp = X + Y)
    (hlt : (Xp - c) ^ 2 + (Yp - c) ^ 2 < (X - c) ^ 2 + (Y - c) ^ 2) :
    Xp ≤ max X Y ∧ Yp ≤ max X Y ∧ min X Y ≤ Xp ∧ min X Y ≤ Yp := by
  have hY : Yp = X + Y - Xp := by linarith
  have hid : (Xp - c) ^ 2 + (Yp - c) ^ 2 - (X - c) ^ 2 - (Y - c) ^ 2 =
      2 * ((Xp - X) * (Xp - Y)) := by
    rw [hY]
    ring
  have hkey : (Xp - X) * (Xp - Y) < 0 := by nlinarith
  rcases mul_neg_iff.mp hkey with ⟨h1, h2⟩ | ⟨h1, h2⟩
  · have hx : X < Xp ∧ Xp < Y := ⟨by linarith, by linarith⟩
    refine ⟨?_, ?_, ?_, ?_⟩
    · exact le_trans (le_of_lt hx.2) (le_max_right _ _)
    · rw [hY]
      have : X + Y - Xp < Y := by linarith
      exact le_trans (le_of_lt this) (le_max_right _ _)
    · exact le_trans (min_le_left _ _) (le_of_lt hx.1)
    · rw [hY]
      have : X < X + Y - Xp := by linarith
      exact le_trans (min_le_left _ _) (le_of_lt this)
  · have hx : Y < Xp ∧ Xp < X := ⟨by linarith, by linarith⟩
    refine ⟨?_, ?_, ?_, ?_⟩
    · exact le_trans (le_of_lt hx.2) (le_max_left _ _)
    · rw [hY]
      have : X + Y - Xp < X := by linarith
      exact le_trans (le_of_lt this) (le_max_left _ _)
    · exact le_trans (min_le_right _ _) (le_of_lt hx.1)
    · rw [hY]
      have : Y < X + Y - Xp := by linarith
      exact le_trans (min_le_right _ _) (le_of_lt this)

/-- One accepted pass of the refiner under the pure-ARR objective: the reported
cost is honest, the cost strictly drops, total revenue and the total of the
per-rep loads are unchanged, and any pairwise load gap bound `M` survives. -/
theorem findSwap_pure_step (cur : List Account) (reps : List Rep) (cfg : StrategyConfig)
    (hnd : (reps.map fun r => r.Rep_Name).Nodup) (next : List Account) (c : ℚ)
    (hf : findSwap cur (computeTotalCost cur reps .pureARR cfg) reps .pureARR cfg
      = some (next, c)) :
    c = computeTotalCost next reps .pureARR cfg ∧
    computeTotalCost next reps .pureARR cfg < computeTotalCost cur reps .pureARR cfg ∧
    sumARR next = sumARR cur ∧
    (reps.map fun r => load next r.Rep_Name).sum = (reps.map fun r => load cur r.Rep_Name).sum ∧
    ∀ M : ℚ,
      (∀ r1 ∈ reps, ∀ r2 ∈ reps, load cur r1.Rep_Name ≤ load cur r2.Rep_Name + M) →
      ∀ r1 ∈ reps, ∀ r2 ∈ reps, load next r1.Rep_Name ≤ load next r2.Rep_Name + M := by
  obtain ⟨iA, iB, nA, nB, hpair, hiA, hA, hiB, hB, hnext, hc, hltc⟩ :=
    findSwap_spec cur _ reps .pureARR cfg next c hf
  have hab : nA ≠ nB := repPairs_ne _ hnd _ hpair
  have hmemA : nA ∈ reps.map fun r => r.Rep_Name := (repPairs_mem _ _ hpair).1
  have hmemB : nB ∈ reps.map fun r => r.Rep_Name := (repPairs_mem _ _ hpair).2
  subst hnext
  have hsARR : sumARR (applySwap cur iA iB nA nB) = sumARR cur := applySwap_sumARR ..
  have hload := applySwap_load cur iA iB nA nB hiA hA hiB hB hab
  have hnBA : ¬(nB = nA) := fun hcc => hab hcc.symm
  have hlA : load (applySwap cur iA iB nA nB) nA
      = load cur nA - (cur.getD iA default).ARR + (cur.getD iB default).ARR := by
    rw [hload nA]
    simp only [if_pos rfl, if_neg hnBA, if_true]
    ring
  have hlB : load (applySwap cur iA iB nA nB) nB
      = load cur nB + (cur.getD iA default).ARR - (cur.getD iB default).ARR := by
    rw [hload nB]
    simp only [if_pos rfl, if_neg hab, if_true]
    ring
  have hlO : ∀ n, n ≠ nA → n ≠ nB → load (applySwap cur iA iB nA nB) n = load cur n := by
    intro n h1 h2
    rw [hload n]
    simp only [if_neg (show ¬(nB = n) from fun hcc => h2 hcc.symm),
      if_neg (show ¬(nA = n) from fun hcc => h1 hcc.symm)]
    ring
  have havg : avgPure (applySwap cur iA iB nA nB) reps = avgPure cur reps := by
    unfold avgPure
    rw [hsARR]
  have hcN : computeTotalCost (applySwap cur iA iB nA nB) reps .pureARR cfg
      = ((reps.map fun r => r.Rep_Name).map fun n =>
          (load (applySwap cur iA iB nA nB) n - avgPure cur reps) ^ 2).sum := by
    rw [computeTotalCost_pure_names, havg]
  have hcC : computeTotalCost cur reps .pureARR cfg
      = ((reps.map fun r => r.Rep_Name).map fun n => (load cur n - avgPure cur reps) ^ 2).sum :=
    computeTotalCost_pure_names ..
  have hdec : ((reps.map fun r => r.Rep_Name).map fun n =>
        (load (applySwap cur iA iB nA nB) n - avgPure cur reps) ^ 2).sum
      = ((reps.map fun r => r.Rep_Name).map fun n => (load cur n - avgPure cur reps) ^ 2).sum
        - (load cur nA - avgPure cur reps) ^ 2
        + (load (applySwap cur iA iB nA nB) nA - avgPure cur reps) ^ 2
        - (load cur nB - avgPure cur reps) ^ 2
        + (load (applySwap cur iA iB nA nB) nB - avgPure cur reps) ^ 2 :=
    sum_map_eq_update2 nA nB hab _ _
      (fun n h1 h2 => by simp only [hlO n h1 h2])
      (reps.map fun r => r.Rep_Name) hnd hmemA hmemB
  have hltN : computeTotalCost (applySwap cur iA iB nA nB) reps .pureARR cfg
      < computeTotalCost cur reps .pureARR cfg := by
    rw [hc] at hltc
    linarith
  have hkey : (load (applySwap cur iA iB nA nB) nA - avgPure cur reps) ^ 2
      + (load (applySwap cur iA iB nA nB) nB - avgPure cur reps) ^ 2
      < (load cur nA - avgPure cur reps) ^ 2 + (load cur nB - avgPure cur reps) ^ 2 := by
    rw [hcN, hcC] at hltN
    linarith
  have hsum2 : load (applySwap cur iA iB nA nB) nA + load (applySwap cur iA iB nA nB) nB
      = load cur nA + load cur nB := by
    rw [hlA, hlB]
    ring
  have hpb := pair_bounds (load cur nA) (load cur nB)
    (load (applySwap cur iA iB nA nB) nA) (load (applySwap cur iA iB nA nB) nB)
    (avgPure cur reps) hsum2 hkey
  have hS : (reps.map fun r => load (applySwap cur iA iB nA nB) r.Rep_Name).sum
      = (reps.map fun r => load cur r.Rep_Name).sum := by
    rw [map_name_sum reps (load (applySwap cur iA iB nA nB)), map_name_sum reps (load cur)]
    have hupd : ((reps.map fun r => r.Rep_Name).map (load (applySwap cur iA iB nA nB))).sum
        = ((reps.map fun r => r.Rep_Name).map (load cur)).sum
          - load cur nA + load (applySwap cur iA iB nA nB) nA
          - load cur nB + load (applySwap cur iA iB nA nB) nB :=
      sum_map_eq_update2 nA nB hab _ _ (fun n h1 h2 => hlO n h1 h2)
        (reps.map fun r => r.Rep_Name) hnd hmemA hmemB
    rw [hupd, hlA, hlB]
    ring
  obtain ⟨rA, hrAm, hrAn⟩ := List.mem_map.mp hmemA
  obtain ⟨rB, hrBm, hrBn⟩ := List.mem_map.mp hmemB
  refine ⟨hc, hltN, hsARR, hS, ?_⟩
  intro M hM r1 hr1 r2 hr2
  have h1 : load cur nA ≤ load cur nB + M := by
    have hthis := hM rA hrAm rB hrBm
    rw [hrAn, hrBn] at hthis
    exact hthis
  have h2 : load cur nB ≤ load cur nA + M := by
    have hthis := hM rB hrBm rA hrAm
    rw [hrAn, hrBn] at hthis
    exact hthis
  have hXY : max (load cur nA) (load cur nB) ≤ min (load cur nA) (load cur nB) + M := by
    rcases le_total (load cur nA) (load cur nB) with h | h
    · rw [max_eq_right h, min_eq_left h]
      exact h2
    · rw [max_eq_left h, min_eq_right h]
      exact h1
  have hupper : load (applySwap cur iA iB nA nB) r1.Rep_Name
        ≤ max (load cur nA) (load cur nB)
      ∨ load (applySwap cur iA iB nA nB) r1.Rep_Name = load cur r1.Rep_Name := by
    by_cases hA1 : r1.Rep_Name = nA
    · left
      rw [hA1]
      exact hpb.1
    · by_cases hB1 : r1.Rep_Name = nB
      · left
        rw [hB1]
        exact hpb.2.1
      · right
        exact hlO _ hA1 hB1
  have hlower : min (load cur nA) (load cur nB) ≤ load (applySwap cur iA iB nA nB) r2.Rep_Name
      ∨ load (applySwap cur iA iB nA nB) r2.Rep_Name = load cur r2.Rep_Name := by
    by_cases hA2 : r2.Rep_Name = nA
    · left
      rw [hA2]
      exact hpb.2.2.1
    · by_cases hB2 : r2.Rep_Name = nB
      · left
        rw [hB2]
        exact hpb.2.2.2
      · right
        exact hlO _ hA2 hB2
  rcases hupper with hu | hu <;> rcases hlower with hl | hl
  · linarith
  · have ha : load cur nA ≤ load cur r2.Rep_Name + M := by
      have hthis := hM rA hrAm r2 hr2
      rw [hrAn] at hthis
      exact hthis
    have hb : load cur nB ≤ load cur r2.Rep_Name + M := by
      have hthis := hM rB hrBm r2 hr2
      rw [hrBn] at hthis
      exact hthis
    rw [hl]
    have hmx : max (load cur nA) (load cur nB) ≤ load cur r2.Rep_Name + M := max_le ha hb
    linarith
  · have ha : load cur r1.Rep_Name ≤ load cur nA + M := by
      have hthis := hM r1 hr1 rA hrAm
      rw [hrAn] at hthis
      exact hthis
    have hb : load cur r1.Rep_Name ≤ load cur nB + M := by
      have hthis := hM r1 hr1 rB hrBm
      rw [hrBn] at hthis
      exact hthis
    rw [hu]
    rcases le_total (load cur nA) (load cur nB) with h | h
    · rw [min_eq_left h] at hl
      linarith
    · rw [min_eq_right h] at hl
      linarith
  · rw [hu, hl]
    exact hM r1 hr1 r2 hr2

/-- Fuel induction over the refinement loop, threading the loop invariant that
`bestCost` is the cost of the current assignment. -/
theorem swapGo_pure (reps : List Rep) (cfg : StrategyConfig)
    (hnd : (reps.map fun r => r.Rep_Name).Nodup) :
    ∀ (fuel : Nat) (cur : List Account),
      sumARR (swapGo reps .pureARR cfg fuel cur (computeTotalCost cur reps .pureARR cfg))
        = sumARR cur ∧
      (reps.map fun r =>
          load (swapGo reps .pureARR cfg fuel cur (computeTotalCost cur reps .pureARR cfg))
            r.Rep_Name).sum
        = (reps.map fun r => load cur r.Rep_Name).sum ∧
      computeTotalCost (swapGo reps .pureARR cfg fuel cur
          (computeTotalCost cur reps .pureARR cfg)) reps .pureARR cfg
        ≤ computeTotalCost cur reps .pureARR cfg ∧
      ∀ M : ℚ,
        (∀ r1 ∈ reps, ∀ r2 ∈ reps, load cur r1.Rep_Name ≤ load cur r2.Rep_Name + M) →
        ∀ r1 ∈ reps, ∀ r2 ∈ reps,
          load (swapGo reps .pureARR cfg fuel cur (computeTotalCost cur reps .pureARR cfg))
              r1.Rep_Name
            ≤ load (swapGo reps .pureARR cfg fuel cur
                (computeTotalCost cur reps .pureARR cfg)) r2.Rep_Name + M := by
  intro fuel
  induction fuel with
  | zero =>
    intro cur
    exact ⟨rfl, rfl, le_refl _, fun M hM => hM⟩
  | succ n ih =>
    intro cur
    rw [swapGo]
    cases hf : findSwap cur (computeTotalCost cur reps .pureARR cfg) reps .pureARR cfg with
    | none => exact ⟨rfl, rfl, le_refl _, fun M hM => hM⟩
    | some nc =>
      obtain ⟨next, c⟩ := nc
      obtain ⟨hcc, hlt, hsA, hS, hMpres⟩ := findSwap_pure_step cur reps cfg hnd next c hf
      rw [hcc]
      obtain ⟨ih1, ih2, ih3, ih4⟩ := ih next
      refine ⟨ih1.trans hsA, ih2.trans hS, le_trans ih3 (le_of_lt hlt), ?_⟩
      intro M hM
      exact ih4 M (hMpres M hM)

/-- `swapRefine` under the pure-ARR objective: revenue totals, the total of the
per-rep loads, any pairwise load-gap bound, and cost non-increase all survive
(the guard branches return the input unchanged). -/
theorem swapRefine_pure (accounts : List Account) (reps : List Rep) (cfg : StrategyConfig)
    (hnd : (reps.map fun r => r.Rep_Name).Nodup) :
    sumARR (swapRefine accounts reps .pureARR cfg) = sumARR accounts ∧
    (reps.map fun r => load (swapRefine accounts reps .pureARR cfg) r.Rep_Name).sum
      = (reps.map fun r => load accounts r.Rep_Name).sum ∧
    computeTotalCost (swapRefine accounts reps .pureARR cfg) reps .pureARR cfg
      ≤ computeTotalCost accounts reps .pureARR cfg ∧
    ∀ M : ℚ,
      (∀ r1 ∈ reps, ∀ r2 ∈ reps,
        load accounts r1.Rep_Name ≤ load accounts r2.Rep_Name + M) →
      ∀ r1 ∈ reps, ∀ r2 ∈ reps,
        load (swapRefine accounts reps .pureARR cfg) r1.Rep_Name
          ≤ load (swapRefine accounts reps .pureARR cfg) r2.Rep_Name + M := by
  unfold swapRefine
  by_cases hg : reps.length < 2 ∨ accounts.length < 2
  · rw [if_pos hg]
    exact ⟨rfl, rfl, le_refl _, fun M hM => hM⟩
  · rw [if_neg hg]
    exact swapGo_pure reps cfg hnd cfg.maxSwapIterations accounts

/-- Summing squared deviations about two different centers over the same list:
the difference depends only on the list's sum and length. -/
theorem sq_dev_shift : ∀ (loads : List ℚ) (m avg : ℚ),
    (loads.map fun x => (x - m) ^ 2).sum =
      (loads.map fun x => (x - avg) ^ 2).sum
        + (avg - m) * (2 * loads.sum - (loads.length : ℚ) * (m + avg)) := by
  intro loads
  induction loads with
  | nil =>
    intro m avg
    simp
  | cons x t ih =>
    intro m avg
    rw [List.map_cons, List.map_cons, List.sum_cons, List.sum_cons, List.sum_cons,
      List.length_cons, ih m avg]
    push_cast
    ring

/-- C5 (amended): for the revenue-only strategy on a single shared Enterprise
pool with nonnegative revenues and at least two uniquely named reps, every
final per-rep revenue exceeds every other by at most the largest single account
ARR; consequently, whenever a rep's revenue exceeds that largest single ARR,
the max/min revenue ratio is below 2. The claim's unconditional
`max/min < 2.0 whenever min > 0` is false: with one 10-ARR and one 1-ARR
account on two reps, the loads are 10 and 1. -/
theorem C5_greedy_balance_bound (accounts : List Account) (reps : List Rep)
    (config : StrategyConfig)
    (hsegA : ∀ a ∈ accounts, a.Segment = some Segment.Enterprise)
    (hsegR : ∀ r ∈ reps, r.Segment = Segment.Enterprise)
    (hnd : (reps.map fun r => r.Rep_Name).Nodup)
    (hnn : ∀ a ∈ accounts, 0 ≤ a.ARR)
    (hk : 2 ≤ reps.length) :
    ∀ r1 ∈ reps, ∀ r2 ∈ reps,
      load (distributeAccounts accounts reps .pureARR config) r1.Rep_Name ≤
        load (distributeAccounts accounts reps .pureARR config) r2.Rep_Name
          + maxARR accounts ∧
      (maxARR accounts < load (distributeAccounts accounts reps .pureARR config) r2.Rep_Name →
        load (distributeAccounts accounts reps .pureARR config) r1.Rep_Name
          / load (distributeAccounts accounts reps .pureARR config) r2.Rep_Name < 2) := by
  have hentA : accounts.filter (fun a => decide (a.Segment = some Segment.Enterprise))
      = accounts :=
    List.filter_eq_self.mpr (fun a ha => by simp [hsegA a ha])
  have hmmA : accounts.filter (fun a => decide (a.Segment = some Segment.MidMarket)) = [] :=
    List.filter_eq_nil_iff.mpr (fun a ha => by simp [hsegA a ha])
  have hentR : reps.filter (fun r => decide (r.Segment = Segment.Enterprise)) = reps :=
    List.filter_eq_self.mpr (fun r hr => by simp [hsegR r hr])
  have hmmR : reps.filter (fun r => decide (r.Segment = Segment.MidMarket)) = [] :=
    List.filter_eq_nil_iff.mpr (fun r hr => by simp [hsegR r hr])
  have hne : reps ≠ [] := by
    intro hcon
    rw [hcon] at hk
    simp at hk
  have hout : distributeAccounts accounts reps .pureARR config
      = dispatch .pureARR config accounts reps := by
    rw [distributeAccounts_eq, hentA, hmmA, hentR, hmmR, dispatch_nil_accts,
      List.append_nil]
  have hbound : ∀ r1 ∈ reps, ∀ r2 ∈ reps,
      load (dispatch .pureARR config accounts reps) r1.Rep_Name ≤
        load (dispatch .pureARR config accounts reps) r2.Rep_Name + maxARR accounts := by
    by_cases hane : accounts = []
    · subst hane
      intro r1 _ r2 _
      rw [dispatch_nil_accts]
      norm_num [load, maxARR]
    · unfold dispatch
      rw [if_neg hane, if_neg hne]
      dsimp only
      cases he : config.enableSwapRefinement
      · rw [if_neg (by simp)]
        exact greedyBinPacking_bound accounts reps config hnd hnn hne
      · rw [if_pos rfl]
        exact (swapRefine_pure (greedyBinPacking accounts reps config) reps config hnd).2.2.2
          (maxARR accounts) (greedyBinPacking_bound accounts reps config hnd hnn hne)
  intro r1 hr1 r2 hr2
  rw [hout]
  refine ⟨hbound r1 hr1 r2 hr2, ?_⟩
  intro hlt
  have h0 : (0 : ℚ) ≤ maxARR accounts := maxARR_nonneg accounts
  have hpos : 0 < load (dispatch .pureARR config accounts reps) r2.Rep_Name :=
    lt_of_le_of_lt h0 hlt
  have hb := hbound r1 hr1 r2 hr2
  rw [div_lt_iff hpos]
  linarith

/-- C6 (amended): for the revenue-only strategy with uniquely named reps, the
swap-refinement pass never increases the sum of squared deviations of the
per-rep revenues from their mean (every accepted swap strictly lowers the
pure-ARR objective, which differs from this deviation sum by a quantity the
swaps preserve). The claim's "for every strategy" is false: under the
geography-aware strategies an accepted swap may trade balance for locality
and raise the revenue deviation. -/
theorem C6_refinement_nonregression (l : List Account) (reps : List Rep)
    (cfg : StrategyConfig) (hnd : (reps.map fun r => r.Rep_Name).Nodup) :
    devSq (swapRefine l reps .pureARR cfg) reps ≤ devSq l reps := by
  obtain ⟨hsum, hS, hcost, _⟩ := swapRefine_pure l reps cfg hnd
  have havg : avgPure (swapRefine l reps .pureARR cfg) reps = avgPure l reps := by
    unfold avgPure
    rw [hsum]
  have hform : ∀ (x : List Account) (avg : ℚ),
      ((reps.map fun r => r.Rep_Name).map fun n => (load x n - avg) ^ 2).sum
        = ((reps.map fun r => load x r.Rep_Name).map fun t => (t - avg) ^ 2).sum := by
    intro x avg
    rw [List.map_map, List.map_map]
    rfl
  have hco : ((reps.map fun r => load (swapRefine l reps .pureARR cfg) r.Rep_Name).map
        fun t => (t - avgPure l reps) ^ 2).sum
      ≤ ((reps.map fun r => load l r.Rep_Name).map fun t => (t - avgPure l reps) ^ 2).sum := by
    rw [← hform, ← hform]
    rw [computeTotalCost_pure_names, computeTotalCost_pure_names, havg] at hcost
    exact hcost
  have hdevOut : devSq (swapRefine l reps .pureARR cfg) reps
      = ((reps.map fun r => load (swapRefine l reps .pureARR cfg) r.Rep_Name).map fun t =>
          (t - (reps.map fun r => load l r.Rep_Name).sum / (reps.length : ℚ)) ^ 2).sum := by
    unfold devSq
    dsimp only
    rw [hS]
  have hdevL : devSq l reps
      = ((reps.map fun r => load l r.Rep_Name).map fun t =>
          (t - (reps.map fun r => load l r.Rep_Name).sum / (reps.length : ℚ)) ^ 2).sum := rfl
  rw [hdevOut, hdevL]
  have h1 := sq_dev_shift (reps.map fun r => load (swapRefine l reps .pureARR cfg) r.Rep_Name)
    ((reps.map fun r => load l r.Rep_Name).sum / (reps.length : ℚ)) (avgPure l reps)
  have h2 := sq_dev_shift (reps.map fun r => load l r.Rep_Name)
    ((reps.map fun r => load l r.Rep_Name).sum / (reps.length : ℚ)) (avgPure l reps)
  rw [hS, List.length_map] at h1
  rw [List.length_map] at h2
  rw [h1, h2]
  linarith

/-! ## Guarded unfolding lemmas for concrete evaluation -/

theorem siftUp_eq_self (l : List HeapEntry) (i : Nat)
    (h : i = 0 ∨ (l.getD ((i - 1) / 2) default).key ≤ (l.getD i default).key) :
    siftUp l i = l := by
  rw [siftUp]
  rcases h with rfl | h
  · rw [dif_pos rfl]
  · by_cases h0 : i = 0
    · rw [dif_pos h0]
    · rw [dif_neg h0, if_pos h]

theorem siftUp_eq_step (l : List HeapEntry) (i : Nat) (h0 : i ≠ 0)
    (h : ¬ (l.getD ((i - 1) / 2) default).key ≤ (l.getD i default).key) :
    siftUp l i = siftUp (hswap l ((i - 1) / 2) i) ((i - 1) / 2) := by
  rw [siftUp]
  rw [dif_neg h0, if_neg h]

theorem swapGo_one (reps : List Rep) (strategy : DistributionStrategy)
    (config : StrategyConfig) (cur : List Account) (best : ℚ) :
    swapGo reps strategy config 1 cur best =
      match findSwap cur best reps strategy config with
      | none => cur
      | some (next, _) => next := by
  rw [swapGo]
  cases hf : findSwap cur best reps strategy config with
  | none => rfl
  | some nc =>
    obtain ⟨next, c⟩ := nc
    rfl

/-! ## Concrete inputs for the counterexamples and witnesses -/

/-- A segmented Enterprise account with the given id, revenue and state. -/
def eAcct (id : String) (arr : ℚ) (loc : String) : Account :=
  { Account_ID := id, Account_Name := id, Current_Rep := "", ARR := arr, Location := loc,
    Num_Employees := 0, Num_Marketers := 0, Risk_Score := 0, Segment := some .Enterprise }

/-- An account that was never segmented (`Segment = none`). -/
def cxUnseg : Account :=
  { Account_ID := "u1", Account_Name := "u1", Current_Rep := "", ARR := 7, Location := "CA",
    Num_Employees := 0, Num_Marketers := 0, Risk_Score := 0 }

def cxRep : Rep := ⟨"R", "CA", .Enterprise⟩

def cxReps3 : List Rep :=
  [⟨"A", "CA", .Enterprise⟩, ⟨"B", "CA", .Enterprise⟩, ⟨"C", "CA", .Enterprise⟩]

def cxAcc2 : List Account := [eAcct "a1" 10 "CA", eAcct "a2" 10 "CA"]

def cxRepsAB : List Rep := [⟨"A", "CA", .Enterprise⟩, ⟨"B", "CA", .Enterprise⟩]

def cxAcc51 : List Account := [eAcct "b1" 10 "CA", eAcct "b2" 1 "CA"]

def cxNoSwapCfg : StrategyConfig :=
  { DEFAULT_STRATEGY_CONFIG with enableSwapRefinement := false }

def cxGeoCfg : StrategyConfig :=
  { DEFAULT_STRATEGY_CONFIG with geoBonusPct := 56, maxSwapIterations := 1 }

def cxGeoReps : List Rep := [⟨"R1", "CA", .Enterprise⟩, ⟨"R2", "NY", .Enterprise⟩]

def cxGeoAccts : List Account :=
  [eAcct "q" 20 "NY", eAcct "y" 10 "NY", eAcct "t0" 9 "TX", eAcct "t1" 9 "TX",
   eAcct "t2" 9 "TX"]

def cxC10 : List Account := [eAcct "c1" 1 "CA", eAcct "c2" 5 "CA"]

def wRepsEM : List Rep := [⟨"E", "CA", .Enterprise⟩, ⟨"M", "CA", .MidMarket⟩]

/-! ## Counterexamples -/

/-- C1 counterexample: an account whose `Segment` was never computed is silently
dropped by `distributeAccounts` (it falls through both segment filters), so its
revenue is destroyed: the input carries ARR 7 and the output is empty. -/
theorem C1_counterexample :
    distributeAccounts [cxUnseg] [cxRep] .pureARR DEFAULT_STRATEGY_CONFIG = [] ∧
    sumARR [cxUnseg] = 7 ∧ sumARR ([] : List Account) = 0 := by
  refine ⟨by decide, ?_, rfl⟩
  norm_num [sumARR, cxUnseg]

/-- C2 counterexample: the id of an unsegmented account appears zero times — not
exactly once — in the output of `distributeAccounts`. -/
theorem C2_counterexample :
    "u1" ∈ [cxUnseg].map (·.Account_ID) ∧
    ((distributeAccounts [cxUnseg] [cxRep] .pureARR DEFAULT_STRATEGY_CONFIG).map
        (·.Account_ID)).count "u1" = 0 := by
  exact ⟨by decide, by decide⟩

/-- C4 counterexample: in the heap-based revenue-only strategy the tie between
the three zero-load reps `A`, `B`, `C` is broken by heap position, not pool
order: the second 10-ARR account goes to `C` although `B`, earlier in the pool,
also has load `0`. -/
theorem C4_counterexample :
    (greedyBinPacking cxAcc2 cxReps3 DEFAULT_STRATEGY_CONFIG).map (·.Assigned_Rep)
      = [some "A", some "C"] ∧
    load (greedyBinPacking cxAcc2 cxReps3 DEFAULT_STRATEGY_CONFIG) "B" = 0 := by
  have hG : greedyBinPacking cxAcc2 cxReps3 DEFAULT_STRATEGY_CONFIG =
      [{ Account_ID := "a1", Account_Name := "a1", Current_Rep := "", ARR := 10,
         Location := "CA", Num_Employees := 0, Num_Marketers := 0, Risk_Score := 0,
         Assigned_Rep := some "A", Segment := some .Enterprise },
       { Account_ID := "a2", Account_Name := "a2", Current_Rep := "", ARR := 10,
         Location := "CA", Num_Employees := 0, Num_Marketers := 0, Risk_Score := 0,
         Assigned_Rep := some "C", Segment := some .Enterprise }] := by
    norm_num [greedyBinPacking, cxAcc2, cxReps3, eAcct, sortDesc, insertDesc, greedyGo,
      hpop, hpush, siftUp_eq_self, siftUp_eq_step, siftDown_eq_self, siftDown_eq_step,
      smallestIdx, hswap, List.getD, List.cons_ne_nil]
  rw [hG]
  constructor
  · norm_num
  · norm_num +decide [load, List.filter_cons]

/-- C5 counterexample: two reps, accounts of ARR 10 and 1 — the final loads are
10 and 1, both positive, yet their ratio is 10, not below 2.  The claim's
unconditional ratio bound fails whenever one account dominates. -/
theorem C5_counterexample :
    load (distributeAccounts cxAcc51 cxRepsAB .pureARR cxNoSwapCfg) "A" = 10 ∧
    load (distributeAccounts cxAcc51 cxRepsAB .pureARR cxNoSwapCfg) "B" = 1 ∧
    ¬(load (distributeAccounts cxAcc51 cxRepsAB .pureARR cxNoSwapCfg) "A"
        / load (distributeAccounts cxAcc51 cxRepsAB .pureARR cxNoSwapCfg) "B" < 2) := by
  have hD : distributeAccounts cxAcc51 cxRepsAB .pureARR cxNoSwapCfg =
      [{ Account_ID := "b1", Account_Name := "b1", Current_Rep := "", ARR := 10,
         Location := "CA", Num_Employees := 0, Num_Marketers := 0, Risk_Score := 0,
         Assigned_Rep := some "A", Segment := some .Enterprise },
       { Account_ID := "b2", Account_Name := "b2", Current_Rep := "", ARR := 1,
         Location := "CA", Num_Employees := 0, Num_Marketers := 0, Risk_Score := 0,
         Assigned_Rep := some "B", Segment := some .Enterprise }] := by
    norm_num +decide [distributeAccounts, dispatch, cxNoSwapCfg, DEFAULT_STRATEGY_CONFIG,
      greedyBinPacking, cxAcc51, cxRepsAB, eAcct, sortDesc, insertDesc, greedyGo,
      hpop, hpush, siftUp_eq_self, siftUp_eq_step, siftDown_eq_self, siftDown_eq_step,
      smallestIdx, hswap, List.getD, List.cons_ne_nil, List.filter_cons]
  rw [hD]
  refine ⟨by norm_num +decide [load, List.filter_cons],
    by norm_num +decide [load, List.filter_cons], ?_⟩
  norm_num +decide [load, List.filter_cons]

set_option maxHeartbeats 1000000 in
/-- C6 counterexample: under the geography-aware strategy with a 56% same-state
bonus, the refiner accepts the swap that moves the 10-ARR New York account onto
the New York rep in exchange for a 9-ARR Texas account: the locality reward
outweighs the balance penalty, and the squared-deviation of the per-rep revenues
rises from 1/2 to 9/2. -/
theorem C6_counterexample :
    devSq (arrGeographyBalance cxGeoAccts cxGeoReps cxGeoCfg) cxGeoReps = 1/2 ∧
    devSq (distributeAccounts cxGeoAccts cxGeoReps .arrGeo cxGeoCfg) cxGeoReps = 9/2 ∧
    ¬(devSq (distributeAccounts cxGeoAccts cxGeoReps .arrGeo cxGeoCfg) cxGeoReps ≤
        devSq (arrGeographyBalance cxGeoAccts cxGeoReps cxGeoCfg) cxGeoReps) := by
  have hG : arrGeographyBalance cxGeoAccts cxGeoReps cxGeoCfg =
      [{ Account_ID := "q", Account_Name := "q", Current_Rep := "", ARR := 20,
         Location := "NY", Num_Employees := 0, Num_Marketers := 0, Risk_Score := 0,
         Assigned_Rep := some "R2", Segment := some .Enterprise },
       { Account_ID := "y", Account_Name := "y", Current_Rep := "", ARR := 10,
         Location := "NY", Num_Employees := 0, Num_Marketers := 0, Risk_Score := 0,
         Assigned_Rep := some "R1", Segment := some .Enterprise },
       { Account_ID := "t0", Account_Name := "t0", Current_Rep := "", ARR := 9,
         Location := "TX", Num_Employees := 0, Num_Marketers := 0, Risk_Score := 0,
         Assigned_Rep := some "R1", Segment := some .Enterprise },
       { Account_ID := "t1", Account_Name := "t1", Current_Rep := "", ARR := 9,
         Location := "TX", Num_Employees := 0, Num_Marketers := 0, Risk_Score := 0,
         Assigned_Rep := some "R1", Segment := some .Enterprise },
       { Account_ID := "t2", Account_Name := "t2", Current_Rep := "", ARR := 9,
         Location := "TX", Num_Employees := 0, Num_Marketers := 0, Risk_Score := 0,
         Assigned_Rep := some "R2", Segment := some .Enterprise }] := by
    norm_num +decide [arrGeographyBalance, linearGo, selectRep, initStats, freshStats,
      arrGeoCost, geoUpdate, sortDesc, insertDesc, cxGeoAccts, cxGeoReps, cxGeoCfg,
      DEFAULT_STRATEGY_CONFIG, eAcct, List.cons_ne_nil, List.filter_cons]
  have hD : distributeAccounts cxGeoAccts cxGeoReps .arrGeo cxGeoCfg =
      [{ Account_ID := "q", Account_Name := "q", Current_Rep := "", ARR := 20,
         Location := "NY", Num_Employees := 0, Num_Marketers := 0, Risk_Score := 0,
         Assigned_Rep := some "R2", Segment := some .Enterprise },
       { Account_ID := "y", Account_Name := "y", Current_Rep := "", ARR := 10,
         Location := "NY", Num_Employees := 0, Num_Marketers := 0, Risk_Score := 0,
         Assigned_Rep := some "R2", Segment := some .Enterprise },
       { Account_ID := "t0", Account_Name := "t0", Current_Rep := "", ARR := 9,
         Location := "TX", Num_Employees := 0, Num_Marketers := 0, Risk_Score := 0,
         Assigned_Rep := some "R1", Segment := some .Enterprise },
       { Account_ID := "t1", Account_Name := "t1", Current_Rep := "", ARR := 9,
         Location := "TX", Num_Employees := 0, Num_Marketers := 0, Risk_Score := 0,
         Assigned_Rep := some "R1", Segment := some .Enterprise },
       { Account_ID := "t2", Account_Name := "t2", Current_Rep := "", ARR := 9,
         Location := "TX", Num_Employees := 0, Num_Marketers := 0, Risk_Score := 0,
         Assigned_Rep := some "R1", Segment := some .Enterprise }] := by
    rw [distributeAccounts_eq]
    have h1 : cxGeoAccts.filter (fun a => decide (a.Segment = some Segment.Enterprise))
        = cxGeoAccts := by decide
    have h2 : cxGeoAccts.filter (fun a => decide (a.Segment = some Segment.MidMarket))
        = [] := by decide
    have h3 : cxGeoReps.filter (fun r => decide (r.Segment = Segment.Enterprise))
        = cxGeoReps := by decide
    have h4 : cxGeoReps.filter (fun r => decide (r.Segment = Segment.MidMarket)) = [] := by
      decide
    rw [h1, h2, h3, h4, dispatch_nil_accts, List.append_nil]
    rw [dispatch]
    rw [if_neg (by decide), if_neg (by decide)]
    dsimp only
    rw [if_pos (by decide : cxGeoCfg.enableSwapRefinement = true), hG]
    norm_num +decide [swapRefine, swapGo_one, findSwap, findSwapGo, swapCandidates,
      repPairs, indicesAssignedTo, applySwap, setRep, computeTotalCost,
      cxGeoReps, cxGeoCfg, DEFAULT_STRATEGY_CONFIG,
      List.cons_ne_nil, List.filter_cons, List.getD, List.range_succ, List.range_zero]
  rw [hG, hD]
  refine ⟨?_, ?_, ?_⟩ <;>
    norm_num +decide [devSq, load, List.filter_cons, cxGeoReps]

/-- C10 counterexample: with no reps at all, both pools are empty and each
segment's accounts keep their input order — the output ARRs are `[1, 5]`, which
is not descending. -/
theorem C10_counterexample :
    (distributeAccounts cxC10 [] .pureARR DEFAULT_STRATEGY_CONFIG).map (·.ARR) = [1, 5] ∧
    ¬ ((distributeAccounts cxC10 [] .pureARR DEFAULT_STRATEGY_CONFIG).map (·.ARR)).Pairwise
        (fun x y => y ≤ x) := by
  have hD : (distributeAccounts cxC10 [] .pureARR DEFAULT_STRATEGY_CONFIG).map (·.ARR)
      = [1, 5] := by
    norm_num +decide [distributeAccounts, dispatch, cxC10, eAcct, List.filter_cons,
      List.cons_ne_nil]
  refine ⟨hD, ?_⟩
  rw [hD]
  intro hp
  have h5 := (List.pairwise_cons.mp hp).1 5 (by norm_num)
  norm_num at h5

/-! ## Witnesses -/

/-- C1 witness: the conservation theorem applied to one segmented 5-ARR account
and one Enterprise rep. -/
theorem C1_witness :
    (∀ a ∈ [eAcct "w1" 5 "CA"], a.Segment.isSome) ∧
    (([cxRep].map (·.Rep_Name)).Nodup) ∧
    (sumARR (distributeAccounts [eAcct "w1" 5 "CA"] [cxRep] .pureARR DEFAULT_STRATEGY_CONFIG)
        = sumARR [eAcct "w1" 5 "CA"] ∧
      (∀ s : Segment,
        sumARR ((distributeAccounts [eAcct "w1" 5 "CA"] [cxRep] .pureARR
            DEFAULT_STRATEGY_CONFIG).filter fun b => decide (b.Segment = some s)) =
          sumARR ([eAcct "w1" 5 "CA"].filter fun a => decide (a.Segment = some s))) ∧
      (∀ s : Segment, [cxRep].filter (fun r => decide (r.Segment = s)) ≠ [] →
        (([cxRep].filter fun r => decide (r.Segment = s)).map
            fun r => load (distributeAccounts [eAcct "w1" 5 "CA"] [cxRep] .pureARR
              DEFAULT_STRATEGY_CONFIG) r.Rep_Name).sum =
          sumARR ([eAcct "w1" 5 "CA"].filter fun a => decide (a.Segment = some s)))) := by
  have h1 : ∀ a ∈ [eAcct "w1" 5 "CA"], a.Segment.isSome := by decide
  have h2 : (([cxRep].map (·.Rep_Name)).Nodup) := by decide
  exact ⟨h1, h2, C1_revenue_conservation [eAcct "w1" 5 "CA"] [cxRep] .pureARR
    DEFAULT_STRATEGY_CONFIG h1 h2⟩

/-- C2 witness: the exactly-once theorem applied to one segmented account. -/
theorem C2_witness :
    (∀ a ∈ [eAcct "w1" 5 "CA"], a.Segment.isSome) ∧
    (([eAcct "w1" 5 "CA"].map (·.Account_ID)).Nodup) ∧
    (∀ id ∈ [eAcct "w1" 5 "CA"].map (·.Account_ID),
      ((distributeAccounts [eAcct "w1" 5 "CA"] [cxRep] .pureARR
          DEFAULT_STRATEGY_CONFIG).map (·.Account_ID)).count id = 1) := by
  have h1 : ∀ a ∈ [eAcct "w1" 5 "CA"], a.Segment.isSome := by decide
  have h2 : (([eAcct "w1" 5 "CA"].map (·.Account_ID)).Nodup) := by decide
  exact ⟨h1, h2, C2_completeness_no_duplication [eAcct "w1" 5 "CA"] [cxRep] .pureARR
    DEFAULT_STRATEGY_CONFIG h1 h2⟩

/-- C3 witness: segment isolation applied to one account and one rep. -/
theorem C3_witness :
    (([cxRep].map (·.Rep_Name)).Nodup) ∧
    (∀ b ∈ distributeAccounts [eAcct "w1" 5 "CA"] [cxRep] .pureARR DEFAULT_STRATEGY_CONFIG,
      ∀ rp ∈ [cxRep], b.Assigned_Rep = some rp.Rep_Name → b.Segment = some rp.Segment) := by
  have h : (([cxRep].map (·.Rep_Name)).Nodup) := by decide
  exact ⟨h, C3_segment_isolation [eAcct "w1" 5 "CA"] [cxRep] .pureARR
    DEFAULT_STRATEGY_CONFIG h⟩

/-- C4 witness: the first-minimum theorem applied to a one-rep pool with the
constant cost function. -/
theorem C4_witness :
    ([cxRep] : List Rep) ≠ [] ∧
    (∃ l1 r l2, [cxRep] = l1 ++ r :: l2 ∧ selectRep [cxRep] (fun _ => (0 : ℚ)) = r.Rep_Name ∧
      (∀ x ∈ l1, (0 : ℚ) < 0) ∧ (∀ x ∈ [cxRep], (0 : ℚ) ≤ 0)) := by
  have h : ([cxRep] : List Rep) ≠ [] := by decide
  exact ⟨h, C4_linear_scan_tie_break [cxRep] (fun _ => 0) h⟩

/-- C5 witness: the amended balance bound applied to the two-rep, 10-and-1-ARR
pool. -/
theorem C5_witness :
    (∀ a ∈ cxAcc51, a.Segment = some Segment.Enterprise) ∧
    (∀ r ∈ cxRepsAB, r.Segment = Segment.Enterprise) ∧
    ((cxRepsAB.map fun r => r.Rep_Name).Nodup) ∧
    (∀ a ∈ cxAcc51, 0 ≤ a.ARR) ∧
    2 ≤ cxRepsAB.length ∧
    (∀ r1 ∈ cxRepsAB, ∀ r2 ∈ cxRepsAB,
      load (distributeAccounts cxAcc51 cxRepsAB .pureARR DEFAULT_STRATEGY_CONFIG) r1.Rep_Name ≤
        load (distributeAccounts cxAcc51 cxRepsAB .pureARR DEFAULT_STRATEGY_CONFIG) r2.Rep_Name
          + maxARR cxAcc51 ∧
      (maxARR cxAcc51 <
          load (distributeAccounts cxAcc51 cxRepsAB .pureARR DEFAULT_STRATEGY_CONFIG)
            r2.Rep_Name →
        load (distributeAccounts cxAcc51 cxRepsAB .pureARR DEFAULT_STRATEGY_CONFIG) r1.Rep_Name
          / load (distributeAccounts cxAcc51 cxRepsAB .pureARR DEFAULT_STRATEGY_CONFIG)
              r2.Rep_Name < 2)) := by
  have h1 : ∀ a ∈ cxAcc51, a.Segment = some Segment.Enterprise := by decide
  have h2 : ∀ r ∈ cxRepsAB, r.Segment = Segment.Enterprise := by decide
  have h3 : (cxRepsAB.map fun r => r.Rep_Name).Nodup := by decide
  have h4 : ∀ a ∈ cxAcc51, 0 ≤ a.ARR := by decide
  have h5 : 2 ≤ cxRepsAB.length := by decide
  exact ⟨h1, h2, h3, h4, h5, C5_greedy_balance_bound cxAcc51 cxRepsAB
    DEFAULT_STRATEGY_CONFIG h1 h2 h3 h4 h5⟩

/-- C6 witness: the amended non-regression theorem applied to the empty
assignment over two uniquely named reps. -/
theorem C6_witness :
    ((cxRepsAB.map fun r => r.Rep_Name).Nodup) ∧
    devSq (swapRefine [] cxRepsAB .pureARR DEFAULT_STRATEGY_CONFIG) cxRepsAB ≤
      devSq [] cxRepsAB := by
  have h : (cxRepsAB.map fun r => r.Rep_Name).Nodup := by decide
  exact ⟨h, C6_refinement_nonregression [] cxRepsAB DEFAULT_STRATEGY_CONFIG h⟩

/-- C10 witness: the amended ordering theorem applied to the empty account list
with one rep in each segment. -/
theorem C10_witness :
    wRepsEM.filter (fun r => decide (r.Segment = Segment.Enterprise)) ≠ [] ∧
    wRepsEM.filter (fun r => decide (r.Segment = Segment.MidMarket)) ≠ [] ∧
    ((distributeAccounts [] wRepsEM .pureARR DEFAULT_STRATEGY_CONFIG).map core =
      (sortDesc (([] : List Account).filter fun a =>
          decide (a.Segment = some Segment.Enterprise))).map core
        ++
      (sortDesc (([] : List Account).filter fun a =>
          decide (a.Segment = some Segment.MidMarket))).map core
    ∧ (sortDesc (([] : List Account).filter fun a =>
        decide (a.Segment = some Segment.Enterprise))).Pairwise (fun x y => y.ARR ≤ x.ARR)
    ∧ (sortDesc (([] : List Account).filter fun a =>
        decide (a.Segment = some Segment.MidMarket))).Pairwise (fun x y => y.ARR ≤ x.ARR)
    ∧ (∀ q : ℚ,
        (sortDesc (([] : List Account).filter fun a =>
            decide (a.Segment = some Segment.Enterprise))).filter
            (fun a => decide (a.ARR = q)) =
          (([] : List Account).filter fun a =>
            decide (a.Segment = some Segment.Enterprise)).filter
            fun a => decide (a.ARR = q))
    ∧ (∀ q : ℚ,
        (sortDesc (([] : List Account).filter fun a =>
            decide (a.Segment = some Segment.MidMarket))).filter
            (fun a => decide (a.ARR = q)) =
          (([] : List Account).filter fun a =>
            decide (a.Segment = some Segment.MidMarket)).filter
            fun a => decide (a.ARR = q))) := by
  have h1 : wRepsEM.filter (fun r => decide (r.Segment = Segment.Enterprise)) ≠ [] := by
    decide
  have h2 : wRepsEM.filter (fun r => decide (r.Segment = Segment.MidMarket)) ≠ [] := by
    decide
  exact ⟨h1, h2, C10_output_ordering [] wRepsEM .pureARR DEFAULT_STRATEGY_CONFIG h1 h2⟩

end TS

